import Mathlib

/-!
Shallow embedding of the obsidian-mcp-sb storage/query core.

The embedding covers:
* `src/types.ts` — `Note`, `NoteFrontmatter`, `SearchOptions`, `parseDate`,
  `isValidType`/`isValidStatus`/`isValidCategory`;
* `src/memory-storage.ts` — `MemoryStorage.searchNotes`, `applyFilters`,
  `sortByRecency`, `matchesTag`, `getRecentNotes`, `upsertNote`;
* `src/database-storage.ts` — `DatabaseStorage.searchNotes` (the SQL WHERE
  clause it builds for an empty free-text query), `upsertNote`,
  `getRecentNotes`; SQLite semantics (BINARY `=`, ASCII case-insensitive
  `LIKE`, lexicographic TEXT comparison, `NULL` handling, the
  `(note_path, tag)` primary key) are embedded explicitly;
* `src/vault.ts` — `indexNotes` (size limit, per-file error collection,
  frontmatter defaulting);
* the `summarize_notes` tool handler of `src/index.ts`.

JavaScript strings are modelled as Lean `String`; absent (`undefined`)
values as `Option`; JavaScript truthiness of a string is `some s` with
`s ≠ ""`.  Lowercasing is `Char.toLower`, the ASCII fragment shared by
JavaScript `toLowerCase`, SQLite `LOWER` and SQLite `LIKE` folding; all
concrete inputs used in theorems below are ASCII.
-/

/-- JavaScript truthiness of a `string | undefined` value: `undefined` and
the empty string are falsy. -/
def truthyStr (v : Option String) : Bool :=
  match v with
  | some s => !(s == "")
  | none => false

/-- JavaScript `v || d` for a `string | undefined` value `v` and string
default `d`. -/
def orElseStr (v : Option String) (d : String) : String :=
  if truthyStr v then v.getD d else d

/-- JavaScript `v || null` for a `string | undefined` value, as used by
`DatabaseStorage.upsertNote` to store SQL `NULL` for absent or empty
fields. -/
def orNull (v : Option String) : Option String :=
  if truthyStr v then v else none

/-- JavaScript `v || d` for a `number | undefined` value: `undefined` and
`0` are falsy (this models `options.limit || 20`). -/
def orElseNat (v : Option Nat) (d : Nat) : Nat :=
  match v with
  | some n => if n == 0 then d else n
  | none => d

/-- JavaScript truthiness of a `boolean | undefined` value. -/
def truthyBool (v : Option Bool) : Bool :=
  match v with
  | some b => b
  | none => false

/-- ASCII lowercasing of a character list; the fragment of JavaScript
`toLowerCase`, SQLite `LOWER` and `LIKE` case folding used here. -/
def lowerL (l : List Char) : List Char :=
  l.map Char.toLower

/-- Lowercased copy of a string (JavaScript `s.toLowerCase()` on ASCII). -/
def lowerS (s : String) : String :=
  String.mk (lowerL s.data)

/-- JavaScript `s.startsWith(pre)`. -/
def strStartsWith (s pre : String) : Bool :=
  pre.data.isPrefixOf s.data

/-- JavaScript `s.endsWith(suf)`. -/
def strEndsWith (s suf : String) : Bool :=
  suf.data.isSuffixOf s.data

/-- Substring containment on character lists, the semantics of JavaScript
`haystack.includes(needle)`. -/
def hasInfix (needle : List Char) : List Char → Bool
  | [] => needle.isEmpty
  | c :: cs => needle.isPrefixOf (c :: cs) || hasInfix needle cs

/-- JavaScript `haystack.includes(needle)`. -/
def strIncludes (haystack needle : String) : Bool :=
  hasInfix needle.data haystack.data

/-- Strict byte-wise (memcmp) comparison of character lists: SQLite's
default BINARY collation on TEXT values. -/
def lexLt : List Char → List Char → Bool
  | [], [] => false
  | [], _ :: _ => true
  | _ :: _, [] => false
  | a :: as, b :: bs =>
    if a.toNat < b.toNat then true
    else if b.toNat < a.toNat then false
    else lexLt as bs

/-- Byte-wise `≤` on TEXT values (SQLite `<=` / the mirror of `>=`). -/
def lexLe (a b : List Char) : Bool :=
  !(lexLt b a)

/-- SQLite `LIKE` matching (no ESCAPE clause): `%` matches any sequence,
`_` any single character, other characters match ASCII
case-insensitively.  Structured as recursion on the pattern; a `%`
consumes an arbitrary suffix of the subject via `List.tails`. -/
def likeMatches : List Char → List Char → Bool
  | [], s => s.isEmpty
  | p :: ps, s =>
    if p == '%' then s.tails.any (fun t => likeMatches ps t)
    else if p == '_' then
      match s with
      | [] => false
      | _ :: cs => likeMatches ps cs
    else
      match s with
      | [] => false
      | c :: cs => p.toLower == c.toLower && likeMatches ps cs

/-- True when the string contains none of the SQLite `LIKE`
metacharacters `%` and `_`. -/
def noWildcard (l : List Char) : Bool :=
  l.all (fun c => !(c == '%') && !(c == '_'))

/-- Digit test by byte range (the semantics of the `\d` character class in
the `parseDate` regular expression). -/
def isDigitCh (c : Char) : Bool :=
  48 ≤ c.toNat && c.toNat ≤ 57

/-- Numeric value of a digit character. -/
def digitVal (c : Char) : Nat :=
  c.toNat - 48

/-- Value of a digit string, most significant digit first (JavaScript
`Number` on a digit-only string). -/
def natOfDigits : List Char → Nat
  | [] => 0
  | c :: cs => digitVal c * 10 ^ cs.length + natOfDigits cs

/-- Gregorian leap-year rule, as implemented by the JavaScript `Date`
calendar against which `parseDate` validates its input. -/
def isLeapYear (y : Nat) : Bool :=
  (y % 4 == 0 && y % 100 != 0) || y % 400 == 0

/-- Number of days of month `m` of year `y`. -/
def daysInMonth (y m : Nat) : Nat :=
  if m == 2 then (if isLeapYear y then 29 else 28)
  else if m == 4 || m == 6 || m == 9 || m == 11 then 30
  else 31

/-- Embedding of `parseDate` from `src/types.ts`: accepts exactly the
strings matching `^\d{4}-\d{2}-\d{2}$` that denote a real calendar date
(the JavaScript code checks this by parsing with `new Date` and comparing
the components back).  Instead of a `Date` object it returns the rank
`y * 10000 + m * 100 + d`, which is ordered exactly like the timestamps
of the accepted dates. -/
def parseDate (s : String) : Option Nat :=
  match s.data with
  | [y1, y2, y3, y4, h1, m1, m2, h2, d1, d2] =>
    if h1 == '-' && h2 == '-' && ([y1, y2, y3, y4, m1, m2, d1, d2].all isDigitCh) then
      let y := natOfDigits [y1, y2, y3, y4]
      let m := natOfDigits [m1, m2]
      let d := natOfDigits [d1, d2]
      if 1 ≤ m && m ≤ 12 && 1 ≤ d && d ≤ daysInMonth y m then
        some (y * 10000 + m * 100 + d)
      else none
    else none
  | _ => none

/-- Stable insertion into a sorted list: `le a b` means `a` may precede
`b`. -/
def insertLe (le : α → α → Bool) (a : α) : List α → List α
  | [] => [a]
  | b :: bs => if le a b then a :: b :: bs else b :: insertLe le a bs

/-- Insertion sort; models `Array.prototype.sort` with a consistent
comparator (stable, as required by ES2019). -/
def sortLe (le : α → α → Bool) : List α → List α
  | [] => []
  | a :: as => insertLe le a (sortLe le as)

/-- `NoteFrontmatter` from `src/types.ts`.  Absent (`undefined`) fields
are `none`; `tags` is `none` when the YAML had no (array-valued) `tags`
key.  `extra` carries the additional caller-defined key/value pairs, with
values kept in their JSON-encoded textual form. -/
structure NoteFrontmatter where
  created : Option String := none
  modified : Option String := none
  tags : Option (List String) := none
  type : Option String := none
  status : Option String := none
  category : Option String := none
  extra : List (String × String) := []
deriving Repr, DecidableEq

/-- `Note` from `src/types.ts`. -/
structure Note where
  path : String
  title : String := ""
  content : String := ""
  frontmatter : NoteFrontmatter := {}
  excerpt : Option String := none
deriving Repr, DecidableEq

/-- `SearchOptions` from `src/types.ts`. -/
structure SearchOptions where
  tags : Option (List String) := none
  type : Option String := none
  status : Option String := none
  category : Option String := none
  dateFrom : Option String := none
  dateTo : Option String := none
  path : Option String := none
  includeArchive : Option Bool := none
  limit : Option Nat := none
deriving Repr, DecidableEq

/-- `isValidType` from `src/types.ts`, on a `string | undefined` value. -/
def isValidType (v : Option String) : Bool :=
  match v with
  | some s => ["note", "project", "task", "daily", "meeting"].contains s
  | none => false

/-- `isValidStatus` from `src/types.ts`. -/
def isValidStatus (v : Option String) : Bool :=
  match v with
  | some s => ["active", "archived", "idea", "completed"].contains s
  | none => false

/-- `isValidCategory` from `src/types.ts`. -/
def isValidCategory (v : Option String) : Bool :=
  match v with
  | some s => ["work", "personal", "knowledge", "life", "dailies"].contains s
  | none => false

/-- `matchesTag` shared by `MemoryStorage` and `ObsidianVault`:
case-insensitive equality, or the note tag extends the search tag by a
`/`-separated segment. -/
def matchesTag (noteTag searchTag : String) : Bool :=
  let normalizedNoteTag := lowerS noteTag
  let normalizedSearchTag := lowerS searchTag
  if normalizedNoteTag == normalizedSearchTag then true
  else if strStartsWith normalizedNoteTag (normalizedSearchTag ++ "/") then true
  else false

/-- JavaScript `note.frontmatter.tags?.some(p)`: `undefined` yields a
falsy result. -/
def tagsSome (tags : Option (List String)) (p : String → Bool) : Bool :=
  match tags with
  | some l => l.any p
  | none => false

/-- Body of the path-pattern filter of `MemoryStorage.applyFilters`
(§ the lines guarded by `if (options.path)`). -/
def memPathCond (optPath notePath : String) : Bool :=
  let pattern := lowerS optPath
  let np := lowerS notePath
  if strEndsWith pattern "/**" then
    strStartsWith np (String.mk (pattern.data.take (pattern.data.length - 3)))
  else
    strIncludes np pattern

/-- Archive test of `MemoryStorage.applyFilters`:
`note.path.toLowerCase().startsWith('archive/')`. -/
def memIsArchived (notePath : String) : Bool :=
  strStartsWith (lowerS notePath) "archive/"

/-- `MemoryStorage.applyFilters`, filter by filter in source order:
path pattern, archive exclusion, tags, type, status, category,
`dateFrom`, `dateTo`. -/
def applyFilters (notes : List Note) (options : SearchOptions) : List Note :=
  let f1 :=
    if truthyStr options.path then
      notes.filter (fun note => memPathCond (options.path.getD "") note.path)
    else notes
  let f2 :=
    if truthyBool options.includeArchive then f1
    else f1.filter (fun note => !(memIsArchived note.path))
  let f3 :=
    match options.tags with
    | some ts =>
      if ts.length > 0 then
        f2.filter (fun note =>
          ts.any (fun tag =>
            tagsSome note.frontmatter.tags (fun noteTag => matchesTag noteTag tag)))
      else f2
    | none => f2
  let f4 :=
    if truthyStr options.type then
      f3.filter (fun note => note.frontmatter.type == options.type)
    else f3
  let f5 :=
    if truthyStr options.status then
      f4.filter (fun note => note.frontmatter.status == options.status)
    else f4
  let f6 :=
    if truthyStr options.category then
      f5.filter (fun note => note.frontmatter.category == options.category)
    else f5
  let f7 :=
    if truthyStr options.dateFrom then
      match parseDate (options.dateFrom.getD "") with
      | some fromDate =>
        f6.filter (fun note =>
          match parseDate (orElseStr note.frontmatter.modified "") with
          | some noteDate => decide (fromDate ≤ noteDate)
          | none => false)
      | none => f6
    else f6
  let f8 :=
    if truthyStr options.dateTo then
      match parseDate (options.dateTo.getD "") with
      | some toDate =>
        f7.filter (fun note =>
          match parseDate (orElseStr note.frontmatter.modified "") with
          | some noteDate => decide (noteDate ≤ toDate)
          | none => false)
      | none => f7
    else f7
  f8

/-- Recency key of `sortByRecency`: the rank of
`new Date(a.frontmatter.modified || a.frontmatter.created || 0)`.
A truthy valid `YYYY-MM-DD` string is ranked by `parseDate`; the absent
case (epoch 0) and unparsable strings rank 0. -/
def recencyKey (note : Note) : Nat :=
  match orNull note.frontmatter.modified with
  | some s => (parseDate s).getD 0
  | none =>
    match orNull note.frontmatter.created with
    | some s => (parseDate s).getD 0
    | none => 0

/-- `MemoryStorage.sortByRecency`: stable sort, most recent first. -/
def sortByRecency (notes : List Note) : List Note :=
  sortLe (fun a b => decide (recencyKey b ≤ recencyKey a)) notes

/-- The filter/sort/limit pipeline of `MemoryStorage.searchNotes`,
applied to the candidate list produced by the text stage (the full note
list when the query is empty, the Fuse.js result list otherwise). -/
def memSearchPipeline (results : List Note) (options : SearchOptions) : List Note :=
  (sortByRecency (applyFilters results options)).take (orElseNat options.limit 20)

/-- `MemoryStorage.searchNotes` with an empty query string: the candidate
list is the whole store. -/
def memSearchNotes (notes : List Note) (options : SearchOptions) : List Note :=
  memSearchPipeline notes options

/-- `MemoryStorage.getRecentNotes`. -/
def memGetRecentNotes (notes : List Note) (limit : Nat) : List Note :=
  (sortByRecency notes).take limit

/-- `MemoryStorage.upsertNote` on the backing `Map` (`Map.set` replaces
the value in place when the key exists, otherwise appends). -/
def memUpsertNote (note : Note) (store : List Note) : List Note :=
  if store.any (fun n => n.path == note.path) then
    store.map (fun n => if n.path == note.path then note else n)
  else store ++ [note]

/-- Row of the `notes` table; the column values computed by
`DatabaseStorage.upsertNote` (`excerpt`, `created`, `modified` stored via
`|| null`; `type`, `status`, `category` via `|| default`). -/
structure NoteRow where
  path : String
  title : String
  content : String
  excerpt : Option String
  created : Option String
  modified : Option String
  type : String
  status : String
  category : String
deriving Repr, DecidableEq

/-- Column values inserted by `DatabaseStorage.upsertNote` for a note. -/
def toRow (note : Note) : NoteRow where
  path := note.path
  title := note.title
  content := note.content
  excerpt := orNull note.excerpt
  created := orNull note.frontmatter.created
  modified := orNull note.frontmatter.modified
  type := orElseStr note.frontmatter.type "note"
  status := orElseStr note.frontmatter.status "active"
  category := orElseStr note.frontmatter.category "personal"

/-- The `note_tags` rows a note contributes (`upsertNote` inserts them
only when `tags` is a non-empty array, which amounts to the list itself
or the empty list). -/
def dbTagsOf (note : Note) : List String :=
  (note.frontmatter.tags).getD []

/-- Tag condition of `DatabaseStorage.searchNotes`: the join with
`note_tags` keeps a note when some of its tag rows satisfies, for some
requested tag, `nt.tag = ? OR nt.tag LIKE ? || '/%'` (SQLite `=` is
case-sensitive, `LIKE` folds ASCII case); `SELECT DISTINCT` collapses
the duplicate rows the join produces. -/
def dbTagCond (requested : List String) (noteTags : List String) : Bool :=
  noteTags.any (fun nt =>
    requested.any (fun t =>
      nt == t || likeMatches (t ++ "/%").data nt.data))

/-- Path condition of `DatabaseStorage.searchNotes`:
`LOWER(n.path) LIKE prefix || '%'` for a `/**` pattern, otherwise
`LOWER(n.path) LIKE '%' || pattern || '%'`. -/
def dbPathCond (optPath notePath : String) : Bool :=
  let pattern := lowerS optPath
  if strEndsWith pattern "/**" then
    likeMatches (pattern.data.take (pattern.data.length - 3) ++ ['%']) (lowerL notePath.data)
  else
    likeMatches ('%' :: pattern.data ++ ['%']) (lowerL notePath.data)

/-- Archive condition of `DatabaseStorage.searchNotes`:
`LOWER(n.path) NOT LIKE 'archive/%'`. -/
def dbArchiveCond (notePath : String) : Bool :=
  !(likeMatches "archive/%".data (lowerL notePath.data))

/-- The conjunction of WHERE conditions `DatabaseStorage.searchNotes`
builds for a note's row (empty free-text query, so no `MATCH`
condition).  Date conditions compare TEXT lexicographically; a `NULL`
`modified` column fails both. -/
def dbWherePred (options : SearchOptions) (note : Note) : Bool :=
  (match options.tags with
   | some ts =>
     if ts.length > 0 then dbTagCond ts (dbTagsOf note) else true
   | none => true) &&
  (if truthyStr options.path then dbPathCond (options.path.getD "") note.path else true) &&
  (if truthyBool options.includeArchive then true else dbArchiveCond note.path) &&
  (if truthyStr options.type then (toRow note).type == options.type.getD "" else true) &&
  (if truthyStr options.status then (toRow note).status == options.status.getD "" else true) &&
  (if truthyStr options.category then (toRow note).category == options.category.getD "" else true) &&
  (if truthyStr options.dateFrom then
    match (toRow note).modified with
    | some m => lexLe (options.dateFrom.getD "").data m.data
    | none => false
   else true) &&
  (if truthyStr options.dateTo then
    match (toRow note).modified with
    | some m => lexLe m.data (options.dateTo.getD "").data
    | none => false
   else true)

/-- Row order of `ORDER BY n.modified DESC`: SQLite sorts `NULL` as the
smallest TEXT value, so `DESC` puts rows with a `NULL` `modified`
last. -/
def dbModifiedGe (a b : Option String) : Bool :=
  match a, b with
  | none, none => true
  | none, some _ => false
  | some _, none => true
  | some x, some y => lexLe y.data x.data

/-- `DatabaseStorage.searchNotes` with an empty query, acting on the
store produced by upserting `notes`: WHERE filter, `ORDER BY n.modified
DESC`, `LIMIT options.limit || 20`.  Rows are recovered as the notes
they were built from (`rowToNote` reassembles exactly the stored
columns, tag rows and custom fields of the path). -/
def dbSearchNotes (notes : List Note) (options : SearchOptions) : List Note :=
  (sortLe (fun a b => dbModifiedGe (toRow a).modified (toRow b).modified)
      (notes.filter (dbWherePred options))).take (orElseNat options.limit 20)

/-- `DatabaseStorage.getRecentNotes`:
`SELECT * FROM notes ORDER BY modified DESC LIMIT ?`. -/
def dbGetRecentNotes (notes : List Note) (limit : Nat) : List Note :=
  (sortLe (fun a b => dbModifiedGe (toRow a).modified (toRow b).modified) notes).take limit

/-- Duplicate test used to model the `(note_path, tag)` and
`(note_path, key)` primary keys: a plain `INSERT` of a duplicate raises
`SQLITE_CONSTRAINT` and aborts the transaction. -/
def hasDup : List String → Bool
  | [] => false
  | x :: xs => xs.contains x || hasDup xs

/-- The four tables owned by `DatabaseStorage`.  `notesTbl` is keyed by
`path`; `noteTags` by `(note_path, tag)`; `noteFm` by `(note_path, key)`
with JSON-encoded values; `notesFts` is the fts5 shadow table, whose
rows carry `(path, title, content)` and are keyed only by their implicit
rowid. -/
structure DbState where
  notesTbl : List NoteRow := []
  noteTags : List (String × String) := []
  noteFm : List (String × String × String) := []
  notesFts : List (String × String × String) := []
deriving Repr, DecidableEq

/-- `DatabaseStorage.upsertNote`, one transaction: `INSERT OR REPLACE`
into `notes` (drop any row with the same `path`, append the new one),
`DELETE` the note's `note_tags` and `note_frontmatter` rows, re-insert
tag rows and custom-field rows with plain `INSERT` (a duplicate within
the inserted batch violates the composite primary key, raising an error
that rolls the whole transaction back), and `INSERT OR REPLACE` into
`notes_fts`, which — the fts5 table having no key on `path` and each
insert receiving a fresh rowid — simply appends a row. -/
def dbUpsertNote (note : Note) (db : DbState) : Except String DbState :=
  let newTags := dbTagsOf note
  let newFm := note.frontmatter.extra
  if hasDup newTags then
    Except.error "UNIQUE constraint failed: note_tags.note_path, note_tags.tag"
  else if hasDup (newFm.map Prod.fst) then
    Except.error "UNIQUE constraint failed: note_frontmatter.note_path, note_frontmatter.key"
  else
    Except.ok
      { notesTbl := db.notesTbl.filter (fun r => !(r.path == note.path)) ++ [toRow note]
        noteTags := db.noteTags.filter (fun r => !(r.1 == note.path))
          ++ newTags.map (fun t => (note.path, t))
        noteFm := db.noteFm.filter (fun r => !(r.1 == note.path))
          ++ newFm.map (fun kv => (note.path, kv.1, kv.2))
        notesFts := db.notesFts ++ [(note.path, note.title, note.content)] }

/-- A value of a parsed YAML frontmatter entry, as far as the indexer
inspects it: a string, an array (of tag strings), or anything else. -/
inductive RawVal where
  | str : String → RawVal
  | list : List String → RawVal
  | other : RawVal
deriving Repr, DecidableEq

/-- The frontmatter object `gray-matter` hands to `vault.ts`'s
`indexNotes`: the six recognised keys plus the remaining custom entries
(`rest` of the destructuring), values in JSON-encoded textual form. -/
structure RawData where
  created : Option RawVal := none
  modified : Option RawVal := none
  tags : Option RawVal := none
  type : Option RawVal := none
  status : Option RawVal := none
  category : Option RawVal := none
  extra : List (String × String) := []
deriving Repr, DecidableEq

/-- JavaScript `typeof v === 'string' ? v : ''`. -/
def strOrEmpty (v : Option RawVal) : String :=
  match v with
  | some (RawVal.str s) => s
  | _ => ""

/-- JavaScript `Array.isArray(v) ? v : []`. -/
def listOrEmpty (v : Option RawVal) : List String :=
  match v with
  | some (RawVal.list l) => l
  | _ => []

/-- `isValidType` applied to a raw frontmatter value (the `unknown`
overload in `src/types.ts`: must be a string among the enumerated
ones). -/
def isValidTypeRaw (v : Option RawVal) : Bool :=
  match v with
  | some (RawVal.str s) => ["note", "project", "task", "daily", "meeting"].contains s
  | _ => false

/-- `isValidStatus` on a raw value. -/
def isValidStatusRaw (v : Option RawVal) : Bool :=
  match v with
  | some (RawVal.str s) => ["active", "archived", "idea", "completed"].contains s
  | _ => false

/-- `isValidCategory` on a raw value. -/
def isValidCategoryRaw (v : Option RawVal) : Bool :=
  match v with
  | some (RawVal.str s) => ["work", "personal", "knowledge", "life", "dailies"].contains s
  | _ => false

/-- The string value of a raw entry when the validator accepted it,
otherwise the fixed default. -/
def validOrDefault (valid : Option RawVal → Bool) (v : Option RawVal) (dflt : String) : String :=
  if valid v then
    match v with
    | some (RawVal.str s) => s
    | _ => dflt
  else dflt

/-- The frontmatter object built by `vault.ts`'s `indexNotes`:
defaults with validation for the six recognised keys, the custom entries
spread after them (the destructuring removed the six keys from `rest`,
so nothing is overridden). -/
def buildFrontmatter (data : RawData) : NoteFrontmatter where
  created := some (strOrEmpty data.created)
  modified := some (strOrEmpty data.modified)
  tags := some (listOrEmpty data.tags)
  type := some (validOrDefault isValidTypeRaw data.type "note")
  status := some (validOrDefault isValidStatusRaw data.status "active")
  category := some (validOrDefault isValidCategoryRaw data.category "personal")
  extra := data.extra

/-- A candidate file produced by the glob scan, as the indexing pass
sees it: its vault-relative path, its size in bytes, and the outcome of
reading + frontmatter-parsing it (`Except.error` carries the message of
the exception `readFile`/`matter` would throw).  The body is the content
below the frontmatter. -/
structure VaultFile where
  path : String
  size : Nat
  parsed : Except String (RawData × String)
deriving Repr

/-- One recorded `(path, error)` entry of `this.indexErrors`. -/
structure IndexError where
  path : String
  error : String
deriving Repr, DecidableEq

/-- `Math.round(n / 1024 / 1024)` for a byte count: both divisions by a
power of two are exact in floating point, so this is exact half-up
rounding. -/
def roundMB (n : Nat) : Nat :=
  (n + 524288) / 1048576

/-- The "File too large" message recorded by `indexNotes`. -/
def fileTooLargeMsg (size maxFileSize : Nat) : String :=
  "File too large (" ++ toString (roundMB size) ++ "MB, max "
    ++ toString (roundMB maxFileSize) ++ "MB)"

/-- `basename(filePath, '.md')`: the last path segment, with a final
`.md` stripped. -/
def basenameMd (p : String) : String :=
  let base := p.data.foldl (fun acc c => if c == '/' then [] else acc ++ [c]) []
  if ".md".data.isSuffixOf base then String.mk (base.take (base.length - 3))
  else String.mk base

/-- Processing of one candidate file by `vault.ts`'s `indexNotes`: the
size check comes first and records a "File too large" error; a
read/parse failure records the exception's message; otherwise the note
is built with defaulted frontmatter.  `excerptFn` stands for
`createExcerpt` (not needed by any claim, so the pass is parametric in
it). -/
def indexFile (excerptFn : String → String) (maxFileSize : Nat) (f : VaultFile) :
    Except IndexError Note :=
  if f.size > maxFileSize then
    Except.error ⟨f.path, fileTooLargeMsg f.size maxFileSize⟩
  else
    match f.parsed with
    | Except.error msg => Except.error ⟨f.path, msg⟩
    | Except.ok (data, body) =>
      Except.ok
        { path := f.path
          title := basenameMd f.path
          content := body
          frontmatter := buildFrontmatter data
          excerpt := some (excerptFn body) }

/-- `vault.ts`'s `indexNotes` over the candidate list: every file is
processed, failures are collected into `indexErrors` and never abort the
pass, successes become the returned notes (null entries filtered
out). -/
def indexNotes (excerptFn : String → String) (maxFileSize : Nat) (files : List VaultFile) :
    List Note × List IndexError :=
  (files.filterMap (fun f => (indexFile excerptFn maxFileSize f).toOption),
   files.filterMap (fun f =>
     match indexFile excerptFn maxFileSize f with
     | Except.error e => some e
     | Except.ok _ => none))

/-- The summary object built by the `summarize_notes` tool handler.
The count maps are total functions returning 0 for absent keys. -/
structure Summary where
  total : Nat
  byType : String → Nat
  byStatus : String → Nat
  byCategory : String → Nat
  recentlyModified : List (String × String × Option String)

/-- The `summarize_notes` handler: it runs `vault.searchNotes('',
options)` (memory backend) with only tag/type/status/category filters
set, then counts by truthy type/status/category and reports the first
five entries of the returned (recency-ordered) list. -/
def summarizeNotes (store : List Note) (options : SearchOptions) : Summary :=
  let notes := memSearchNotes store options
  { total := notes.length
    byType := fun k =>
      notes.countP (fun n => truthyStr n.frontmatter.type && n.frontmatter.type.getD "" == k)
    byStatus := fun k =>
      notes.countP (fun n => truthyStr n.frontmatter.status && n.frontmatter.status.getD "" == k)
    byCategory := fun k =>
      notes.countP (fun n => truthyStr n.frontmatter.category && n.frontmatter.category.getD "" == k)
    recentlyModified := (notes.take 5).map (fun n => (n.title, n.path, n.frontmatter.modified)) }

/-- A string that is already ASCII-lowercase and contains no SQLite
`LIKE` metacharacter.  On such tags the two backends' hierarchical tag
conditions coincide. -/
def asciiLowerWildFree (s : String) : Bool :=
  (lowerL s.data == s.data) && noWildcard s.data

/-- A date field that is absent/empty or a valid `YYYY-MM-DD` string. -/
def validOrAbsentDate (v : Option String) : Bool :=
  !(truthyStr v) || (parseDate (v.getD "")).isSome

/-- Well-formedness of a stored note under which the two backends'
structural filters coincide: lowercase, wildcard-free tags; present,
non-empty `type`/`status`/`category`; `modified` absent or a valid
`YYYY-MM-DD` date. -/
def goodNote (n : Note) : Bool :=
  (dbTagsOf n).all asciiLowerWildFree &&
  truthyStr n.frontmatter.type &&
  truthyStr n.frontmatter.status &&
  truthyStr n.frontmatter.category &&
  validOrAbsentDate n.frontmatter.modified

/-- Well-formedness of a query under which the two backends' structural
filters coincide: lowercase wildcard-free requested tags, wildcard-free
path pattern, valid date bounds when present. -/
def goodOptions (o : SearchOptions) : Bool :=
  (o.tags.getD []).all asciiLowerWildFree &&
  (!(truthyStr o.path) || noWildcard (o.path.getD "").data) &&
  validOrAbsentDate o.dateFrom &&
  validOrAbsentDate o.dateTo

theorem insertLe_perm (le : α → α → Bool) (a : α) (l : List α) :
    (insertLe le a l).Perm (a :: l) := by
  induction l with
  | nil => exact List.Perm.refl _
  | cons b bs ih =>
    simp only [insertLe]
    split
    · exact List.Perm.refl _
    · exact (ih.cons b).trans (List.Perm.swap a b bs)

theorem sortLe_perm (le : α → α → Bool) (l : List α) :
    (sortLe le l).Perm l := by
  induction l with
  | nil => exact List.Perm.refl _
  | cons a as ih => exact (insertLe_perm le a (sortLe le as)).trans (ih.cons a)

theorem mem_sortLe {le : α → α → Bool} {l : List α} {x : α} :
    x ∈ sortLe le l ↔ x ∈ l :=
  (sortLe_perm le l).mem_iff

theorem length_sortLe (le : α → α → Bool) (l : List α) :
    (sortLe le l).length = l.length :=
  (sortLe_perm le l).length_eq

theorem pairwise_insertLe {le : α → α → Bool}
    (htot : ∀ a b, le a b = true ∨ le b a = true)
    (htrans : ∀ a b c, le a b = true → le b c = true → le a c = true)
    {a : α} {l : List α} (hl : l.Pairwise (fun x y => le x y = true)) :
    (insertLe le a l).Pairwise (fun x y => le x y = true) := by
  induction l with
  | nil => simp [insertLe]
  | cons b bs ih =>
    simp only [insertLe]
    rcases List.pairwise_cons.mp hl with ⟨hb, hbs⟩
    split
    · rename_i hab
      refine List.pairwise_cons.mpr ⟨?_, hl⟩
      intro y hy
      rcases List.mem_cons.mp hy with rfl | hy
      · exact hab
      · exact htrans a b y hab (hb _ hy)
    · rename_i hab
      have hba : le b a = true := (htot a b).resolve_left hab
      refine List.pairwise_cons.mpr ⟨?_, ih hbs⟩
      intro y hy
      have hmem := (insertLe_perm le a bs).mem_iff.mp hy
      rcases List.mem_cons.mp hmem with rfl | hyy
      · exact hba
      · exact hb _ hyy

theorem pairwise_sortLe {le : α → α → Bool}
    (htot : ∀ a b, le a b = true ∨ le b a = true)
    (htrans : ∀ a b c, le a b = true → le b c = true → le a c = true)
    (l : List α) :
    (sortLe le l).Pairwise (fun x y => le x y = true) := by
  induction l with
  | nil => simp [sortLe]
  | cons a as ih => exact pairwise_insertLe htot htrans ih

theorem char_toNat_ofNat_valid {n : Nat} (h : n < 55296) : (Char.ofNat n).toNat = n := by
  rw [Char.ofNat, dif_pos (Or.inl h)]
  rfl

theorem toLower_eq_of_not_upper {c : Char} (h : ¬(65 ≤ c.toNat ∧ c.toNat ≤ 90)) :
    c.toLower = c := by
  rw [Char.toLower, if_neg]
  intro hc
  exact h ⟨hc.1, hc.2⟩

theorem toNat_toLower_of_upper {c : Char} (h : 65 ≤ c.toNat ∧ c.toNat ≤ 90) :
    c.toLower.toNat = c.toNat + 32 := by
  rw [Char.toLower, if_pos ⟨h.1, h.2⟩]
  exact char_toNat_ofNat_valid (by omega)

theorem toLower_toLower (c : Char) : c.toLower.toLower = c.toLower := by
  by_cases h : 65 ≤ c.toNat ∧ c.toNat ≤ 90
  · have hn := toNat_toLower_of_upper h
    exact toLower_eq_of_not_upper (by omega)
  · rw [toLower_eq_of_not_upper h, toLower_eq_of_not_upper h]

theorem lowerL_idem (l : List Char) : lowerL (lowerL l) = lowerL l := by
  simp only [lowerL, List.map_map]
  exact List.map_congr_left (fun c _ => toLower_toLower c)

theorem toLower_eq_pct_iff {c : Char} : (c.toLower == '%') = (c == '%') := by
  by_cases h : 65 ≤ c.toNat ∧ c.toNat ≤ 90
  · have hn := toNat_toLower_of_upper h
    have h1 : ¬(c.toLower = '%') := by
      intro he
      have h37 : ('%' : Char).toNat = 37 := by decide
      rw [he, h37] at hn
      omega
    have h2 : ¬(c = '%') := by
      intro he
      subst he
      exact absurd h (by decide)
    simp [h1, h2]
  · rw [toLower_eq_of_not_upper h]

theorem toLower_eq_us_iff {c : Char} : (c.toLower == '_') = (c == '_') := by
  by_cases h : 65 ≤ c.toNat ∧ c.toNat ≤ 90
  · have hn := toNat_toLower_of_upper h
    have h95 : ('_' : Char).toNat = 95 := by decide
    have h1 : ¬(c.toLower = '_') := by
      intro he
      rw [he, h95] at hn
      omega
    have h2 : ¬(c = '_') := by
      intro he
      subst he
      exact absurd h (by decide)
    simp [h1, h2]
  · rw [toLower_eq_of_not_upper h]

theorem noWildcard_lowerL (l : List Char) : noWildcard (lowerL l) = noWildcard l := by
  induction l with
  | nil => rfl
  | cons c cs ih =>
    simp only [lowerL, List.map_cons, noWildcard, List.all_cons] at *
    rw [toLower_eq_pct_iff, toLower_eq_us_iff, ih]

theorem isPrefixOf_nil_eq (n : List Char) : n.isPrefixOf ([] : List Char) = n.isEmpty := by
  cases n <;> rfl

theorem hasInfix_eq_any_tails (n l : List Char) :
    hasInfix n l = l.tails.any (fun t => n.isPrefixOf t) := by
  induction l with
  | nil => simp [hasInfix, isPrefixOf_nil_eq]
  | cons c cs ih => simp [hasInfix, ih]

theorem tails_map (f : α → β) (l : List α) :
    (l.map f).tails = l.tails.map (List.map f) := by
  induction l with
  | nil => rfl
  | cons a as ih => simp [ih]

theorem likeMatches_pct_cons (ps s : List Char) :
    likeMatches ('%' :: ps) s = s.tails.any (fun t => likeMatches ps t) := by
  simp [likeMatches]

theorem likeMatches_lit_cons {a : Char} (ha1 : a ≠ '%') (ha2 : a ≠ '_') (ps : List Char) :
    (likeMatches (a :: ps) [] = false) ∧
    (∀ c cs, likeMatches (a :: ps) (c :: cs) =
      (a.toLower == c.toLower && likeMatches ps cs)) := by
  constructor
  · simp [likeMatches, ha1, ha2]
  · intro c cs
    simp [likeMatches, ha1, ha2]

theorem likeMatches_append_pct {p : List Char} (hp : noWildcard p = true) (s : List Char) :
    likeMatches (p ++ ['%']) s = (lowerL p).isPrefixOf (lowerL s) := by
  induction p generalizing s with
  | nil =>
    simp only [List.nil_append, likeMatches_pct_cons, lowerL, List.map_nil]
    have hmem : ([] : List Char) ∈ s.tails := by
      induction s with
      | nil => simp
      | cons c cs ihs => simp [ihs]
    refine (List.any_eq_true.mpr ⟨[], hmem, rfl⟩).trans ?_
    exact (List.isPrefixOf_nil_left).symm
  | cons a ps ih =>
    simp only [noWildcard, List.all_cons, Bool.and_eq_true, Bool.not_eq_true',
      beq_eq_false_iff_ne, ne_eq] at hp
    obtain ⟨⟨ha1, ha2⟩, hps⟩ := hp
    have hps' : noWildcard ps = true := by
      simpa [noWildcard] using hps
    obtain ⟨hnil, hcons⟩ := likeMatches_lit_cons ha1 ha2 (ps ++ ['%'])
    cases s with
    | nil =>
      simp only [List.cons_append, hnil, lowerL, List.map_cons, List.map_nil]
      exact (List.isPrefixOf_cons_nil).symm
    | cons c cs =>
      simp only [List.cons_append, hcons, lowerL, List.map_cons, ih hps' cs]
      rfl

theorem likeMatches_pct_wrap {p : List Char} (hp : noWildcard p = true) (s : List Char) :
    likeMatches ('%' :: (p ++ ['%'])) s = hasInfix (lowerL p) (lowerL s) := by
  rw [likeMatches_pct_cons, hasInfix_eq_any_tails]
  have h1 : ∀ t : List Char, likeMatches (p ++ ['%']) t = (lowerL p).isPrefixOf (lowerL t) :=
    likeMatches_append_pct hp
  calc (s.tails.any fun t => likeMatches (p ++ ['%']) t)
      = s.tails.any (fun t => (lowerL p).isPrefixOf (lowerL t)) := by
        simp only [h1]
    _ = (lowerL s).tails.any (fun t => (lowerL p).isPrefixOf t) := by
        simp only [lowerL, tails_map, List.any_map]
        rfl

theorem self_mem_tails (l : List α) : l ∈ l.tails := by
  cases l <;> simp

theorem likeMatches_append_pct_of_lower_prefixOf {p : List Char} :
    ∀ {s : List Char}, (lowerL p).isPrefixOf (lowerL s) = true →
      likeMatches (p ++ ['%']) s = true := by
  induction p with
  | nil =>
    intro s _
    simp only [List.nil_append, likeMatches_pct_cons]
    exact List.any_eq_true.mpr ⟨[], by
      induction s with
      | nil => simp
      | cons c cs ihs => simp [ihs], rfl⟩
  | cons a ps ih =>
    intro s h
    cases s with
    | nil => simp [lowerL, List.isPrefixOf_cons_nil] at h
    | cons c cs =>
      simp only [lowerL, List.map_cons, List.isPrefixOf_cons₂, Bool.and_eq_true] at h
      obtain ⟨hac, hrest⟩ := h
      by_cases ha1 : a = '%'
      · subst ha1
        simp only [List.cons_append, likeMatches_pct_cons]
        refine List.any_eq_true.mpr ⟨cs, ?_, ih hrest⟩
        exact List.mem_cons_of_mem _ (self_mem_tails cs)
      · by_cases ha2 : a = '_'
        · subst ha2
          have : likeMatches ('_' :: (ps ++ ['%'])) (c :: cs) = likeMatches (ps ++ ['%']) cs := by
            simp [likeMatches]
          rw [List.cons_append, this]
          exact ih hrest
        · obtain ⟨_, hcons⟩ := likeMatches_lit_cons ha1 ha2 (ps ++ ['%'])
          rw [List.cons_append, hcons]
          simp [hac, ih hrest]

theorem char_eq_of_toNat_eq {a b : Char} (h : a.toNat = b.toNat) : a = b := by
  have h2 := congrArg Char.ofNat h
  rwa [Char.ofNat_toNat, Char.ofNat_toNat] at h2

theorem natOfDigits_lt_pow {l : List Char} (h : l.all isDigitCh = true) :
    natOfDigits l < 10 ^ l.length := by
  induction l with
  | nil => simp [natOfDigits]
  | cons c cs ih =>
    simp only [List.all_cons, Bool.and_eq_true] at h
    obtain ⟨hc, hcs⟩ := h
    have hdig : digitVal c ≤ 9 := by
      simp only [isDigitCh, Bool.and_eq_true, decide_eq_true_eq] at hc
      simp only [digitVal]
      omega
    have hlt := ih hcs
    simp only [natOfDigits, List.length_cons, pow_succ, pow_succ']
    calc digitVal c * 10 ^ cs.length + natOfDigits cs
        < digitVal c * 10 ^ cs.length + 10 ^ cs.length := by omega
      _ = (digitVal c + 1) * 10 ^ cs.length := by ring
      _ ≤ 10 * 10 ^ cs.length := Nat.mul_le_mul_right _ (by omega)
      _ = 10 ^ cs.length * 10 := by ring

theorem digit_block_lt {A B n1 n2 P : Nat} (hAB : A < B) (h1 : n1 < P) :
    A * P + n1 < B * P + n2 := by
  have h2 : A * P + n1 < A * P + P := Nat.add_lt_add_left h1 _
  have h3 : A * P + P = (A + 1) * P := by ring
  have h4 : (A + 1) * P ≤ B * P := Nat.mul_le_mul_right _ (by omega)
  omega

theorem digits_lexLt_iff :
    ∀ {xs ys : List Char}, xs.length = ys.length →
      xs.all isDigitCh = true → ys.all isDigitCh = true →
      (lexLt xs ys = true ↔ natOfDigits xs < natOfDigits ys) := by
  intro xs
  induction xs with
  | nil =>
    intro ys hlen _ _
    cases ys with
    | nil => simp [lexLt, natOfDigits]
    | cons b bs => simp at hlen
  | cons a as ih =>
    intro ys hlen hx hy
    cases ys with
    | nil => simp at hlen
    | cons b bs =>
      simp only [List.length_cons, Nat.succ.injEq] at hlen
      simp only [List.all_cons, Bool.and_eq_true] at hx hy
      obtain ⟨ha, has⟩ := hx
      obtain ⟨hb, hbs⟩ := hy
      simp only [isDigitCh, Bool.and_eq_true, decide_eq_true_eq] at ha hb
      have hxlt := natOfDigits_lt_pow has
      have hylt := natOfDigits_lt_pow hbs
      simp only [lexLt, natOfDigits, hlen]
      by_cases hab : a.toNat < b.toNat
      · rw [if_pos hab]
        have hdv : digitVal a < digitVal b := by simp only [digitVal]; omega
        simp only [true_iff]
        exact digit_block_lt hdv (hlen ▸ hxlt)
      · rw [if_neg hab]
        by_cases hba : b.toNat < a.toNat
        · rw [if_pos hba]
          have hdv : digitVal b < digitVal a := by simp only [digitVal]; omega
          have hlt2 : digitVal b * 10 ^ bs.length + natOfDigits bs <
              digitVal a * 10 ^ bs.length + natOfDigits as := digit_block_lt hdv hylt
          simp only [Bool.false_eq_true, false_iff, not_lt]
          omega
        · rw [if_neg hba]
          have hab2 : a = b := char_eq_of_toNat_eq (by omega)
          subst hab2
          rw [ih hlen has hbs]
          constructor
          · intro h
            exact Nat.add_lt_add_left h _
          · intro h
            omega

theorem digits_eq_of_natOfDigits_eq :
    ∀ {xs ys : List Char}, xs.length = ys.length →
      xs.all isDigitCh = true → ys.all isDigitCh = true →
      natOfDigits xs = natOfDigits ys → xs = ys := by
  intro xs
  induction xs with
  | nil =>
    intro ys hlen _ _ _
    cases ys with
    | nil => rfl
    | cons b bs => simp at hlen
  | cons a as ih =>
    intro ys hlen hx hy hv
    cases ys with
    | nil => simp at hlen
    | cons b bs =>
      simp only [List.length_cons, Nat.succ.injEq] at hlen
      simp only [List.all_cons, Bool.and_eq_true] at hx hy
      obtain ⟨ha, has⟩ := hx
      obtain ⟨hb, hbs⟩ := hy
      have hxlt := natOfDigits_lt_pow has
      have hylt := natOfDigits_lt_pow hbs
      simp only [natOfDigits, hlen] at hv
      have hadig : 48 ≤ a.toNat ∧ a.toNat ≤ 57 := by
        simp only [isDigitCh, Bool.and_eq_true, decide_eq_true_eq] at ha
        exact ha
      have hbdig : 48 ≤ b.toNat ∧ b.toNat ≤ 57 := by
        simp only [isDigitCh, Bool.and_eq_true, decide_eq_true_eq] at hb
        exact hb
      have hdveq : digitVal a = digitVal b := by
        by_cases h1 : digitVal a < digitVal b
        · have hlt2 : digitVal a * 10 ^ bs.length + natOfDigits as <
              digitVal b * 10 ^ bs.length + natOfDigits bs :=
            digit_block_lt h1 (hlen ▸ hxlt)
          omega
        · by_cases h2 : digitVal b < digitVal a
          · have hlt2 : digitVal b * 10 ^ bs.length + natOfDigits bs <
                digitVal a * 10 ^ bs.length + natOfDigits as :=
              digit_block_lt h2 hylt
            omega
          · omega
      have hae : a = b := by
        apply char_eq_of_toNat_eq
        simp only [digitVal] at hdveq
        omega
      subst hae
      have hveq : natOfDigits as = natOfDigits bs := by
        rw [hdveq] at hv
        omega
      rw [ih hlen has hbs hveq]

theorem lexLt_irrefl (l : List Char) : lexLt l l = false := by
  induction l with
  | nil => rfl
  | cons a as ih => simp [lexLt, ih]

theorem lexLt_append :
    ∀ {u u' : List Char}, u.length = u'.length → ∀ (v v' : List Char),
      lexLt (u ++ v) (u' ++ v') = (lexLt u u' || (decide (u = u') && lexLt v v')) := by
  intro u
  induction u with
  | nil =>
    intro u' hlen v v'
    cases u' with
    | nil => simp [lexLt]
    | cons b bs => simp at hlen
  | cons a as ih =>
    intro u' hlen v v'
    cases u' with
    | nil => simp at hlen
    | cons b bs =>
      simp only [List.length_cons, Nat.succ.injEq] at hlen
      have hL : lexLt ((a :: as) ++ v) ((b :: bs) ++ v') =
          (if a.toNat < b.toNat then true else if b.toNat < a.toNat then false
           else lexLt (as ++ v) (bs ++ v')) := rfl
      have hR : lexLt (a :: as) (b :: bs) =
          (if a.toNat < b.toNat then true else if b.toNat < a.toNat then false
           else lexLt as bs) := rfl
      rw [hL, hR]
      by_cases hab : a.toNat < b.toNat
      · simp [hab]
      · rw [if_neg hab, if_neg hab]
        by_cases hba : b.toNat < a.toNat
        · have hne : ¬(a :: as = b :: bs) := by
            intro he
            injection he with h1 _
            rw [h1] at hba
            omega
          simp [hba, hne]
        · have hae : a = b := char_eq_of_toNat_eq (by omega)
          subst hae
          rw [if_neg hba, if_neg hba, ih hlen v v']
          simp

theorem daysInMonth_le_31 (y m : Nat) : daysInMonth y m ≤ 31 := by
  unfold daysInMonth
  split
  · split <;> omega
  · split <;> omega

theorem parseDate_spec {s : String} {v : Nat} (h : parseDate s = some v) :
    ∃ Y M D : List Char,
      s.data = Y ++ '-' :: (M ++ '-' :: D) ∧
      Y.length = 4 ∧ M.length = 2 ∧ D.length = 2 ∧
      Y.all isDigitCh = true ∧ M.all isDigitCh = true ∧ D.all isDigitCh = true ∧
      1 ≤ natOfDigits M ∧ natOfDigits M ≤ 12 ∧
      1 ≤ natOfDigits D ∧ natOfDigits D ≤ 31 ∧
      v = natOfDigits Y * 10000 + natOfDigits M * 100 + natOfDigits D := by
  unfold parseDate at h
  split at h
  · rename_i y1 y2 y3 y4 h1 m1 m2 h2 d1 d2 heq
    split at h
    · rename_i hfmt
      dsimp only at h
      split at h
      · rename_i hrange
        simp only [Bool.and_eq_true, beq_iff_eq, decide_eq_true_eq] at hfmt hrange
        obtain ⟨⟨hh1, hh2⟩, hdig⟩ := hfmt
        obtain ⟨⟨⟨hm1, hm12⟩, hd1⟩, hd31⟩ := hrange
        refine ⟨[y1, y2, y3, y4], [m1, m2], [d1, d2], ?_, rfl, rfl, rfl, ?_, ?_, ?_,
          hm1, hm12, hd1, le_trans hd31 (daysInMonth_le_31 _ _), ?_⟩
        · subst hh1 hh2
          simpa using heq
        · simp only [List.all_cons, List.all_nil, Bool.and_eq_true] at hdig ⊢
          tauto
        · simp only [List.all_cons, List.all_nil, Bool.and_eq_true] at hdig ⊢
          tauto
        · simp only [List.all_cons, List.all_nil, Bool.and_eq_true] at hdig ⊢
          tauto
        · exact (Option.some_inj.mp h).symm
      · exact absurd h (by simp)
    · exact absurd h (by simp)
  · exact absurd h (by simp)

theorem digits_eq_iff {xs ys : List Char} (hlen : xs.length = ys.length)
    (hx : xs.all isDigitCh = true) (hy : ys.all isDigitCh = true) :
    xs = ys ↔ natOfDigits xs = natOfDigits ys := by
  constructor
  · intro h
    rw [h]
  · exact digits_eq_of_natOfDigits_eq hlen hx hy

theorem lexLt_dash_cons (x y : List Char) : lexLt ('-' :: x) ('-' :: y) = lexLt x y := by
  simp [lexLt]

theorem parseDate_lt_iff {s t : String} {v w : Nat}
    (hs : parseDate s = some v) (ht : parseDate t = some w) :
    (lexLt s.data t.data = true ↔ v < w) := by
  obtain ⟨Y, M, D, hsd, hY4, hM2, hD2, hYd, hMd, hDd, hM1, hM12, hD1, hD31, hv⟩ :=
    parseDate_spec hs
  obtain ⟨Y', M', D', htd, hY4', hM2', hD2', hYd', hMd', hDd', hM1', hM12', hD1', hD31', hw⟩ :=
    parseDate_spec ht
  rw [hsd, htd]
  rw [lexLt_append (by omega) _ _, lexLt_dash_cons, lexLt_append (by omega) _ _,
    lexLt_dash_cons]
  simp only [Bool.or_eq_true, Bool.and_eq_true, decide_eq_true_eq]
  rw [digits_lexLt_iff (by omega) hYd hYd', digits_lexLt_iff (by omega) hMd hMd',
    digits_lexLt_iff (by omega) hDd hDd',
    digits_eq_iff (by omega) hYd hYd', digits_eq_iff (by omega) hMd hMd']
  subst hv hw
  omega

theorem parseDate_le_iff {s t : String} {v w : Nat}
    (hs : parseDate s = some v) (ht : parseDate t = some w) :
    (lexLe s.data t.data = true ↔ v ≤ w) := by
  rw [lexLe, Bool.not_eq_true']
  rw [← Bool.not_eq_true (lexLt t.data s.data)]
  rw [parseDate_lt_iff ht hs]
  omega

theorem mem_if_filter {c : Bool} {p : α → Bool} {l : List α} {x : α} :
    (x ∈ if c then l.filter p else l) ↔ x ∈ l ∧ (c = true → p x = true) := by
  cases c <;> simp [List.mem_filter]

theorem mem_if_filter_neg {c : Bool} {p : α → Bool} {l : List α} {x : α} :
    (x ∈ if c then l else l.filter p) ↔ x ∈ l ∧ (c = false → p x = true) := by
  cases c <;> simp [List.mem_filter]

theorem mem_tags_stage {tags : Option (List String)} {p : List String → α → Bool}
    {l : List α} {x : α} :
    (x ∈ match tags with
      | some ts => if ts.length > 0 then l.filter (p ts) else l
      | none => l) ↔
    x ∈ l ∧ (∀ ts, tags = some ts → 0 < ts.length → p ts x = true) := by
  cases tags with
  | none => simp
  | some ts =>
    by_cases h : ts.length > 0
    · simp [h, List.mem_filter]
    · simp [h]

theorem mem_date_stage {c : Bool} {g : Option Nat} {q : Nat → α → Bool}
    {l : List α} {x : α} :
    (x ∈ if c then
      match g with
      | some fd => l.filter (q fd)
      | none => l
     else l) ↔
    x ∈ l ∧ (∀ fd, c = true → g = some fd → q fd x = true) := by
  cases c with
  | false => simp
  | true =>
    cases g with
    | none => simp
    | some fd => simp [List.mem_filter]

theorem mem_applyFilters {notes : List Note} {options : SearchOptions} {x : Note} :
    x ∈ applyFilters notes options ↔ x ∈ notes ∧
      (truthyStr options.path = true → memPathCond (options.path.getD "") x.path = true) ∧
      (truthyBool options.includeArchive = false → (!(memIsArchived x.path)) = true) ∧
      (∀ ts, options.tags = some ts → 0 < ts.length →
        ts.any (fun tag =>
          tagsSome x.frontmatter.tags (fun noteTag => matchesTag noteTag tag)) = true) ∧
      (truthyStr options.type = true → (x.frontmatter.type == options.type) = true) ∧
      (truthyStr options.status = true → (x.frontmatter.status == options.status) = true) ∧
      (truthyStr options.category = true → (x.frontmatter.category == options.category) = true) ∧
      (∀ fd, truthyStr options.dateFrom = true → parseDate (options.dateFrom.getD "") = some fd →
        (match parseDate (orElseStr x.frontmatter.modified "") with
          | some noteDate => decide (fd ≤ noteDate)
          | none => false) = true) ∧
      (∀ td, truthyStr options.dateTo = true → parseDate (options.dateTo.getD "") = some td →
        (match parseDate (orElseStr x.frontmatter.modified "") with
          | some noteDate => decide (noteDate ≤ td)
          | none => false) = true) := by
  simp only [applyFilters]
  rw [mem_date_stage, mem_date_stage, mem_if_filter, mem_if_filter, mem_if_filter,
    mem_tags_stage, mem_if_filter_neg, mem_if_filter]
  tauto

theorem stringMk_data (s : String) : String.mk s.data = s := rfl

theorem lowerS_eq_self {s : String} (h : lowerL s.data = s.data) : lowerS s = s := by
  rw [lowerS, h, stringMk_data]

theorem asciiLowerWildFree_lower {s : String} (h : asciiLowerWildFree s = true) :
    lowerL s.data = s.data := by
  simp only [asciiLowerWildFree, Bool.and_eq_true, beq_iff_eq] at h
  exact h.1

theorem asciiLowerWildFree_noWild {s : String} (h : asciiLowerWildFree s = true) :
    noWildcard s.data = true := by
  simp only [asciiLowerWildFree, Bool.and_eq_true] at h
  exact h.2

theorem any_congr_mem {l : List α} {p q : α → Bool} (h : ∀ x ∈ l, p x = q x) :
    l.any p = l.any q := by
  induction l with
  | nil => rfl
  | cons a as ih =>
    simp only [List.any_cons, h a (List.mem_cons_self a as)]
    rw [ih (fun x hx => h x (List.mem_cons_of_mem a hx))]

theorem any_swap (l : List α) (m : List β) (f : α → β → Bool) :
    l.any (fun a => m.any (fun b => f a b)) = m.any (fun b => l.any (fun a => f a b)) := by
  rw [Bool.eq_iff_iff]
  simp only [List.any_eq_true]
  tauto

theorem noWildcard_append {u v : List Char} (hu : noWildcard u = true)
    (hv : noWildcard v = true) : noWildcard (u ++ v) = true := by
  simp only [noWildcard, List.all_append, Bool.and_eq_true]
  exact ⟨hu, hv⟩

theorem noWildcard_take {l : List Char} (h : noWildcard l = true) (n : Nat) :
    noWildcard (l.take n) = true := by
  simp only [noWildcard, List.all_eq_true] at h ⊢
  intro c hc
  exact h c (List.mem_of_mem_take hc)

theorem tagCond_eq {nt t : String} (hnt : asciiLowerWildFree nt = true)
    (ht : asciiLowerWildFree t = true) :
    matchesTag nt t = (nt == t || likeMatches (t ++ "/%").data nt.data) := by
  have hnt1 := asciiLowerWildFree_lower hnt
  have ht1 := asciiLowerWildFree_lower ht
  have hslash : ("/%" : String).data = ['/', '%'] := by decide
  have hslash1 : ("/" : String).data = ['/'] := by decide
  have hdata : (t ++ "/%").data = (t.data ++ ['/']) ++ ['%'] := by
    rw [String.data_append, hslash, List.append_assoc]
    rfl
  have hwild : noWildcard (t.data ++ ['/']) = true :=
    noWildcard_append (asciiLowerWildFree_noWild ht) (by decide)
  rw [hdata, likeMatches_append_pct hwild]
  have hlow : lowerL (t.data ++ ['/']) = t.data ++ ['/'] := by
    rw [lowerL, List.map_append]
    have ht1' : List.map Char.toLower t.data = t.data := ht1
    rw [ht1']
    congr 1
  rw [hlow]
  have hnt1' : lowerL nt.data = nt.data := hnt1
  rw [hnt1']
  rw [matchesTag]
  simp only [lowerS_eq_self hnt1, lowerS_eq_self ht1]
  have hsw : strStartsWith nt (t ++ "/") = (t.data ++ ['/']).isPrefixOf nt.data := by
    rw [strStartsWith, String.data_append, hslash1]
  rw [← hsw]
  by_cases he : (nt == t) = true
  · simp [he]
  · simp only [Bool.not_eq_true] at he
    simp [he]

theorem lowerS_data (s : String) : (lowerS s).data = lowerL s.data := rfl

theorem mk_data (l : List Char) : (String.mk l).data = l := rfl

theorem lowerL_take_lowerL (l : List Char) (n : Nat) :
    lowerL ((lowerL l).take n) = (lowerL l).take n := by
  have h1 : lowerL ((lowerL l).take n) = (lowerL (lowerL l)).take n := by
    rw [lowerL, lowerL, lowerL, List.map_take]
  rw [h1, lowerL_idem]

theorem pathCond_eq {p q : String} (hp : noWildcard p.data = true) :
    memPathCond p q = dbPathCond p q := by
  rw [memPathCond, dbPathCond]
  have hpat : noWildcard (lowerL p.data) = true := by
    rw [noWildcard_lowerL]
    exact hp
  split
  · rw [strStartsWith]
    simp only [lowerS_data, mk_data]
    rw [likeMatches_append_pct (noWildcard_take hpat _), lowerL_idem,
      lowerL_take_lowerL]
  · rw [strIncludes]
    simp only [lowerS_data]
    rw [List.cons_append, likeMatches_pct_wrap hpat, lowerL_idem, lowerL_idem]

theorem archiveCond_eq (q : String) : (!(memIsArchived q)) = dbArchiveCond q := by
  rw [memIsArchived, dbArchiveCond]
  have hdata : ("archive/%" : String).data = ("archive/" : String).data ++ ['%'] := by decide
  have hwild : noWildcard ("archive/" : String).data = true := by decide
  rw [hdata, likeMatches_append_pct hwild]
  have hlow : lowerL ("archive/" : String).data = ("archive/" : String).data := by decide
  rw [hlow, lowerL_idem]
  rw [strStartsWith, lowerS_data]

theorem optEq_orElse {v o : Option String} (d : String) (hv : truthyStr v = true)
    (ho : truthyStr o = true) : (v == o) = (orElseStr v d == o.getD "") := by
  cases v with
  | none => simp [truthyStr] at hv
  | some s =>
    cases o with
    | none => simp [truthyStr] at ho
    | some t =>
      rw [orElseStr, if_pos hv]
      rfl

theorem memTags_eq_dbTagCond {x : Note} {ts : List String}
    (hx : (dbTagsOf x).all asciiLowerWildFree = true)
    (hts : ts.all asciiLowerWildFree = true) :
    ts.any (fun tag => tagsSome x.frontmatter.tags (fun noteTag => matchesTag noteTag tag))
      = dbTagCond ts (dbTagsOf x) := by
  rw [dbTagCond]
  cases htg : x.frontmatter.tags with
  | none =>
    simp [tagsSome, dbTagsOf, htg]
  | some l =>
    rw [dbTagsOf, htg] at hx
    simp only [tagsSome, dbTagsOf, htg, Option.getD_some] at *
    rw [any_swap]
    apply any_congr_mem
    intro nt hnt
    apply any_congr_mem
    intro t ht'
    exact tagCond_eq (List.all_eq_true.mp hx nt hnt) (List.all_eq_true.mp hts t ht')

theorem parseDate_empty : parseDate "" = none := rfl


theorem dateClause_iff (vmod : Option String) {g : String}
    (hg : (parseDate g).isSome = true)
    (hmod : validOrAbsentDate vmod = true)
    (cmp : Nat → Nat → Bool) (clex : String → String → Bool)
    (hcompat : ∀ {m : String} {fd nd : Nat}, parseDate g = some fd → parseDate m = some nd →
      (clex g m = true ↔ cmp fd nd = true)) :
    ((∀ fd, parseDate g = some fd →
      (match parseDate (orElseStr vmod "") with
        | some noteDate => cmp fd noteDate
        | none => false) = true) ↔
    ((match orNull vmod with
      | some m => clex g m
      | none => false) = true)) := by
  rw [Option.isSome_iff_exists] at hg
  obtain ⟨fd, hfd⟩ := hg
  cases hm : truthyStr vmod with
  | false =>
    have h1 : orNull vmod = none := by
      rw [orNull, hm]
      rfl
    have h2 : orElseStr vmod "" = "" := by
      rw [orElseStr, hm]
      rfl
    rw [h1, h2, parseDate_empty]
    simp only [Bool.false_eq_true, iff_false]
    intro h
    have := h fd hfd
    simp at this
  | true =>
    cases vmod with
    | none => simp [truthyStr] at hm
    | some m =>
      rw [validOrAbsentDate, hm] at hmod
      simp only [Bool.not_true, Bool.false_or, Option.getD_some,
        Option.isSome_iff_exists] at hmod
      obtain ⟨nd, hnd⟩ := hmod
      have h1 : orNull (some m) = some m := by
        rw [orNull, hm]
        rfl
      have h2 : orElseStr (some m) "" = m := by
        rw [orElseStr, hm]
        rfl
      rw [h1, h2, hnd]
      constructor
      · intro h
        have := h fd hfd
        simpa using (hcompat hfd hnd).mpr (by simpa using this)
      · intro h fd' hfd'
        rw [hfd] at hfd'
        have hfe : fd = fd' := by
          injection hfd'
        subst hfe
        simpa using (hcompat hfd hnd).mp (by simpa using h)

set_option maxHeartbeats 2000000 in
theorem clauses_iff_dbWherePred {options : SearchOptions} {x : Note}
    (hx : goodNote x = true) (ho : goodOptions options = true) :
    ((truthyStr options.path = true → memPathCond (options.path.getD "") x.path = true) ∧
     (truthyBool options.includeArchive = false → (!(memIsArchived x.path)) = true) ∧
     (∀ ts, options.tags = some ts → 0 < ts.length →
       ts.any (fun tag =>
         tagsSome x.frontmatter.tags (fun noteTag => matchesTag noteTag tag)) = true) ∧
     (truthyStr options.type = true → (x.frontmatter.type == options.type) = true) ∧
     (truthyStr options.status = true → (x.frontmatter.status == options.status) = true) ∧
     (truthyStr options.category = true → (x.frontmatter.category == options.category) = true) ∧
     (∀ fd, truthyStr options.dateFrom = true → parseDate (options.dateFrom.getD "") = some fd →
       (match parseDate (orElseStr x.frontmatter.modified "") with
         | some noteDate => decide (fd ≤ noteDate)
         | none => false) = true) ∧
     (∀ td, truthyStr options.dateTo = true → parseDate (options.dateTo.getD "") = some td →
       (match parseDate (orElseStr x.frontmatter.modified "") with
         | some noteDate => decide (noteDate ≤ td)
         | none => false) = true)) ↔
    dbWherePred options x = true := by
  simp only [goodNote, Bool.and_eq_true] at hx
  obtain ⟨⟨⟨⟨hxtags, hxtype⟩, hxstat⟩, hxcat⟩, hxmod⟩ := hx
  simp only [goodOptions, Bool.and_eq_true] at ho
  obtain ⟨⟨⟨hotags, hopath⟩, hodf⟩, hodt⟩ := ho
  have cpath : (truthyStr options.path = true →
      memPathCond (options.path.getD "") x.path = true) ↔
      ((if truthyStr options.path then dbPathCond (options.path.getD "") x.path else true) = true) := by
    cases hcp : truthyStr options.path with
    | false => simp
    | true =>
      have hw : noWildcard (options.path.getD "").data = true := by
        rw [hcp] at hopath
        simpa using hopath
      simp [pathCond_eq hw]
  have carch : (truthyBool options.includeArchive = false →
      (!(memIsArchived x.path)) = true) ↔
      ((if truthyBool options.includeArchive then true else dbArchiveCond x.path) = true) := by
    cases hb : truthyBool options.includeArchive <;> simp [← archiveCond_eq]
  have ctags : (∀ ts, options.tags = some ts → 0 < ts.length →
      ts.any (fun tag =>
        tagsSome x.frontmatter.tags (fun noteTag => matchesTag noteTag tag)) = true) ↔
      ((match options.tags with
        | some ts => if ts.length > 0 then dbTagCond ts (dbTagsOf x) else true
        | none => true) = true) := by
    cases hts : options.tags with
    | none => simp
    | some ts =>
      rw [hts, Option.getD_some] at hotags
      by_cases hlen : ts.length > 0
      · simp only [hlen, if_true, Option.some_inj]
        rw [← memTags_eq_dbTagCond hxtags hotags]
        constructor
        · intro h
          exact h ts rfl hlen
        · intro h ts' he _
          rw [← he]
          exact h
      · simp only [hlen, if_false, Option.some_inj]
        constructor
        · intro _
          trivial
        · intro _ ts' he hlen'
          subst he
          exact absurd hlen' (by omega)
  have ctype : (truthyStr options.type = true →
      (x.frontmatter.type == options.type) = true) ↔
      ((if truthyStr options.type then (toRow x).type == options.type.getD "" else true) = true) := by
    cases hc : truthyStr options.type with
    | false => simp
    | true =>
      have hoe := optEq_orElse "note" hxtype hc
      simp only [if_true]
      rw [show (toRow x).type = orElseStr x.frontmatter.type "note" from rfl, ← hoe]
      simp
  have cstat : (truthyStr options.status = true →
      (x.frontmatter.status == options.status) = true) ↔
      ((if truthyStr options.status then (toRow x).status == options.status.getD "" else true) = true) := by
    cases hc : truthyStr options.status with
    | false => simp
    | true =>
      have hoe := optEq_orElse "active" hxstat hc
      simp only [if_true]
      rw [show (toRow x).status = orElseStr x.frontmatter.status "active" from rfl, ← hoe]
      simp
  have ccat : (truthyStr options.category = true →
      (x.frontmatter.category == options.category) = true) ↔
      ((if truthyStr options.category then (toRow x).category == options.category.getD "" else true) = true) := by
    cases hc : truthyStr options.category with
    | false => simp
    | true =>
      have hoe := optEq_orElse "personal" hxcat hc
      simp only [if_true]
      rw [show (toRow x).category = orElseStr x.frontmatter.category "personal" from rfl, ← hoe]
      simp
  have hrowmod : (toRow x).modified = orNull x.frontmatter.modified := rfl
  have cdf : (∀ fd, truthyStr options.dateFrom = true →
      parseDate (options.dateFrom.getD "") = some fd →
      (match parseDate (orElseStr x.frontmatter.modified "") with
        | some noteDate => decide (fd ≤ noteDate)
        | none => false) = true) ↔
      ((if truthyStr options.dateFrom then
          match (toRow x).modified with
          | some m => lexLe (options.dateFrom.getD "").data m.data
          | none => false
        else true) = true) := by
    cases hc : truthyStr options.dateFrom with
    | false => simp
    | true =>
      rw [validOrAbsentDate, hc] at hodf
      simp only [Bool.not_true, Bool.false_or] at hodf
      simp only [if_true]
      have hmain := dateClause_iff x.frontmatter.modified hodf hxmod
        (fun fd nd => decide (fd ≤ nd)) (fun g m => lexLe g.data m.data)
        (fun hfd hnd => by
          rw [parseDate_le_iff hfd hnd]
          simp)
      constructor
      · intro h
        exact hmain.mp (fun fd hfd => h fd (by trivial) hfd)
      · intro h fd _ hfd
        exact hmain.mpr h fd hfd
  have cdt : (∀ td, truthyStr options.dateTo = true →
      parseDate (options.dateTo.getD "") = some td →
      (match parseDate (orElseStr x.frontmatter.modified "") with
        | some noteDate => decide (noteDate ≤ td)
        | none => false) = true) ↔
      ((if truthyStr options.dateTo then
          match (toRow x).modified with
          | some m => lexLe m.data (options.dateTo.getD "").data
          | none => false
        else true) = true) := by
    cases hc : truthyStr options.dateTo with
    | false => simp
    | true =>
      rw [validOrAbsentDate, hc] at hodt
      simp only [Bool.not_true, Bool.false_or] at hodt
      simp only [if_true]
      have hmain := dateClause_iff x.frontmatter.modified hodt hxmod
        (fun td nd => decide (nd ≤ td)) (fun g m => lexLe m.data g.data)
        (fun hfd hnd => by
          rw [parseDate_le_iff hnd hfd]
          simp)
      constructor
      · intro h
        exact hmain.mp (fun td htd => h td (by trivial) htd)
      · intro h td _ htd
        exact hmain.mpr h td htd
  rw [cpath, carch, ctags, ctype, cstat, ccat, cdf, cdt]
  simp only [dbWherePred, Bool.and_eq_true]
  constructor
  · rintro ⟨h1, h2, h3, h4, h5, h6, h7, h8⟩
    exact ⟨⟨⟨⟨⟨⟨⟨h3, h1⟩, h2⟩, h4⟩, h5⟩, h6⟩, h7⟩, h8⟩
  · rintro ⟨⟨⟨⟨⟨⟨⟨h3, h1⟩, h2⟩, h4⟩, h5⟩, h6⟩, h7⟩, h8⟩
    exact ⟨h1, h2, h3, h4, h5, h6, h7, h8⟩

theorem sub_if_filter (c : Bool) (p : α → Bool) (l : List α) :
    (if c then l.filter p else l).Sublist l := by
  cases c
  · simp
  · simp [List.filter_sublist]

theorem sub_if_filter_neg (c : Bool) (p : α → Bool) (l : List α) :
    (if c then l else l.filter p).Sublist l := by
  cases c
  · simp [List.filter_sublist]
  · simp

theorem sub_tags_stage (tags : Option (List String)) (p : List String → α → Bool) (l : List α) :
    (match tags with
      | some ts => if ts.length > 0 then l.filter (p ts) else l
      | none => l).Sublist l := by
  cases tags with
  | none => simp
  | some ts =>
    by_cases h : ts.length > 0
    · simp [h, List.filter_sublist]
    · simp [h]

theorem sub_date_stage (c : Bool) (g : Option Nat) (q : Nat → α → Bool) (l : List α) :
    (if c then
      match g with
      | some fd => l.filter (q fd)
      | none => l
     else l).Sublist l := by
  cases c
  · simp
  · cases g with
    | none => simp
    | some fd => simp [List.filter_sublist]

theorem applyFilters_sublist (notes : List Note) (options : SearchOptions) :
    (applyFilters notes options).Sublist notes := by
  simp only [applyFilters]
  exact (sub_date_stage _ _ _ _).trans ((sub_date_stage _ _ _ _).trans
    ((sub_if_filter _ _ _).trans ((sub_if_filter _ _ _).trans
    ((sub_if_filter _ _ _).trans ((sub_tags_stage _ _ _).trans
    ((sub_if_filter_neg _ _ _).trans (sub_if_filter _ _ _)))))))

theorem applyFilters_mem_iff_dbFilter {notes : List Note} {options : SearchOptions}
    (hn : notes.all goodNote = true) (ho : goodOptions options = true) (x : Note) :
    x ∈ applyFilters notes options ↔ x ∈ notes.filter (dbWherePred options) := by
  rw [mem_applyFilters, List.mem_filter]
  constructor
  · rintro ⟨hxin, hcl⟩
    exact ⟨hxin, (clauses_iff_dbWherePred (List.all_eq_true.mp hn x hxin) ho).mp hcl⟩
  · rintro ⟨hxin, hdb⟩
    exact ⟨hxin, (clauses_iff_dbWherePred (List.all_eq_true.mp hn x hxin) ho).mpr hdb⟩

/-- Claim C1 (amended): for documents stored identically in both backends
and an empty free-text query whose effective limit covers the whole
store, the two backends' `searchNotes` return the same set of paths for
every combination of tag, path-pattern, archive, type, status, category
and date-range filters — provided the stored tags and the requested tags
are ASCII-lowercase and free of SQL `LIKE` wildcards, the path pattern is
free of `LIKE` wildcards, every stored document carries non-empty
`type`/`status`/`category` values, and all `modified` values and date
bounds are absent or valid `YYYY-MM-DD` strings.  (The unamended claim is
refuted by `c1_counterexample`: SQLite compares tags case-sensitively
with `=` while the in-memory backend lowercases both sides.) -/
theorem c1_backend_filter_set_equiv (notes : List Note) (options : SearchOptions)
    (hn : notes.all goodNote = true) (ho : goodOptions options = true)
    (hlim : notes.length ≤ orElseNat options.limit 20) :
    ((memSearchNotes notes options).map Note.path).toFinset =
    ((dbSearchNotes notes options).map Note.path).toFinset := by
  have hmem1 : ∀ x : Note, x ∈ memSearchNotes notes options ↔ x ∈ applyFilters notes options := by
    intro x
    rw [memSearchNotes, memSearchPipeline]
    have hlen : (sortByRecency (applyFilters notes options)).length ≤ orElseNat options.limit 20 := by
      rw [sortByRecency, length_sortLe]
      exact le_trans (List.Sublist.length_le (applyFilters_sublist notes options)) hlim
    rw [List.take_of_length_le hlen]
    exact mem_sortLe
  have hmem2 : ∀ x : Note, x ∈ dbSearchNotes notes options ↔
      x ∈ notes.filter (dbWherePred options) := by
    intro x
    rw [dbSearchNotes]
    have hlen : (sortLe (fun a b => dbModifiedGe (toRow a).modified (toRow b).modified)
        (notes.filter (dbWherePred options))).length ≤ orElseNat options.limit 20 := by
      rw [length_sortLe]
      exact le_trans (List.length_filter_le _ _) hlim
    rw [List.take_of_length_le hlen]
    exact mem_sortLe
  ext s
  simp only [List.mem_toFinset, List.mem_map]
  constructor
  · rintro ⟨a, ha, rfl⟩
    exact ⟨a, (hmem2 a).mpr ((applyFilters_mem_iff_dbFilter hn ho a).mp ((hmem1 a).mp ha)), rfl⟩
  · rintro ⟨a, ha, rfl⟩
    exact ⟨a, (hmem1 a).mpr ((applyFilters_mem_iff_dbFilter hn ho a).mpr ((hmem2 a).mp ha)), rfl⟩

/-- Claim C1, counterexample to the claim as stated: one document tagged
`Work` (capital W), queried with the tag filter `work`, empty free text
and a limit covering the store.  The in-memory backend lowercases both
tags and returns the document; the SQLite backend compares `nt.tag =
'work'` case-sensitively (and `'Work'` does not match `'work/%'`
either), so it returns nothing: the two path sets differ. -/
theorem c1_counterexample :
    ((memSearchNotes [{ path := "n.md", frontmatter := { tags := some ["Work"] } }]
        { tags := some ["work"], limit := some 10 }).map Note.path).toFinset ≠
    ((dbSearchNotes [{ path := "n.md", frontmatter := { tags := some ["Work"] } }]
        { tags := some ["work"], limit := some 10 }).map Note.path).toFinset := by
  decide

/-- Witness instantiating `c1_backend_filter_set_equiv` at a concrete
two-document store with tag and date filters. -/
theorem c1_backend_filter_set_equiv_witness :
    ([{ path := "work/a.md", frontmatter := { modified := some "2025-01-15", tags := some ["work/puppet"], type := some "note", status := some "active", category := some "work" } },
      { path := "Archive/x.md", frontmatter := { modified := some "2024-01-01", tags := some ["personal"], type := some "note", status := some "active", category := some "personal" } }] : List Note).all goodNote = true ∧
    goodOptions { tags := some ["work"], dateFrom := some "2025-01-01", limit := some 5 } = true ∧
    ((memSearchNotes
        [{ path := "work/a.md", frontmatter := { modified := some "2025-01-15", tags := some ["work/puppet"], type := some "note", status := some "active", category := some "work" } },
         { path := "Archive/x.md", frontmatter := { modified := some "2024-01-01", tags := some ["personal"], type := some "note", status := some "active", category := some "personal" } }]
        { tags := some ["work"], dateFrom := some "2025-01-01", limit := some 5 }).map Note.path).toFinset =
    ((dbSearchNotes
        [{ path := "work/a.md", frontmatter := { modified := some "2025-01-15", tags := some ["work/puppet"], type := some "note", status := some "active", category := some "work" } },
         { path := "Archive/x.md", frontmatter := { modified := some "2024-01-01", tags := some ["personal"], type := some "note", status := some "active", category := some "personal" } }]
        { tags := some ["work"], dateFrom := some "2025-01-01", limit := some 5 }).map Note.path).toFinset :=
  ⟨by decide, by decide,
    c1_backend_filter_set_equiv _ _ (by decide) (by decide) (by decide)⟩

theorem matchesTag_eq_or (nt st : String) :
    matchesTag nt st =
      (lowerS nt == lowerS st || strStartsWith (lowerS nt) (lowerS st ++ "/")) := by
  rw [matchesTag]
  by_cases h1 : (lowerS nt == lowerS st) = true
  · simp [h1]
  · simp only [Bool.not_eq_true] at h1
    by_cases h2 : strStartsWith (lowerS nt) (lowerS st ++ "/") = true
    · simp [h1, h2]
    · simp only [Bool.not_eq_true] at h2
      simp [h1, h2]

/-- Claim C2: the tag matcher returns true exactly when the lowercased
note tag equals the lowercased search tag or extends it by a
`/`-separated segment; reflexivity and the three documented examples
hold. -/
theorem c2_tag_matcher_iff :
    (∀ noteTag searchTag : String,
      matchesTag noteTag searchTag = true ↔
        (lowerS noteTag = lowerS searchTag ∨
         strStartsWith (lowerS noteTag) (lowerS searchTag ++ "/") = true)) ∧
    (∀ t : String, matchesTag t t = true) ∧
    matchesTag "work/puppet" "work" = true ∧
    matchesTag "work" "work/puppet" = false ∧
    matchesTag "homework" "work" = false := by
  refine ⟨?_, ?_, by decide, by decide, by decide⟩
  · intro nt st
    rw [matchesTag_eq_or]
    simp [beq_iff_eq]
  · intro t
    rw [matchesTag_eq_or]
    simp

/-- Claim C10: for a pattern of the form `X ++ "/**"`, stripping the
three-character marker removes the slash from the compared prefix, so
both backends keep every document whose lowercase path merely starts
with lowercase `X`, with no `/` boundary required; in particular
`Work/**` matches `Workshops/a.md` in both backends. -/
theorem c10_marker_strip_no_boundary :
    (∀ x q : String, (lowerL x.data).isPrefixOf (lowerL q.data) = true →
      memPathCond (x ++ "/**") q = true ∧ dbPathCond (x ++ "/**") q = true) ∧
    memPathCond "Work/**" "Workshops/a.md" = true ∧
    dbPathCond "Work/**" "Workshops/a.md" = true := by
  refine ⟨?_, by decide, by decide⟩
  intro x q hpre
  have hdata : (x ++ "/**").data = x.data ++ ['/', '*', '*'] := by
    rw [String.data_append]
  have hlowdata : (lowerS (x ++ "/**")).data = lowerL x.data ++ ['/', '*', '*'] := by
    rw [lowerS_data, hdata, lowerL, List.map_append]
    congr 1
  have hends : strEndsWith (lowerS (x ++ "/**")) "/**" = true := by
    rw [strEndsWith, List.isSuffixOf, hlowdata]
    have hrev : ("/**" : String).data.reverse = ['*', '*', '/'] := by decide
    rw [hrev, List.reverse_append]
    have : (['/', '*', '*'] : List Char).reverse = ['*', '*', '/'] := by decide
    rw [this]
    simp [List.isPrefixOf_iff_prefix, List.prefix_append]
  have htake : (lowerS (x ++ "/**")).data.take ((lowerS (x ++ "/**")).data.length - 3) =
      lowerL x.data := by
    rw [hlowdata]
    have hlen : (lowerL x.data ++ ['/', '*', '*']).length - 3 = (lowerL x.data).length := by
      simp
    rw [hlen, List.take_left]
  constructor
  · rw [memPathCond]
    rw [if_pos hends]
    rw [strStartsWith, mk_data, htake, lowerS_data]
    exact hpre
  · rw [dbPathCond]
    rw [if_pos hends]
    rw [htake]
    apply likeMatches_append_pct_of_lower_prefixOf
    rw [lowerL_idem, lowerL_idem]
    exact hpre

/-- Witness instantiating `c10_marker_strip_no_boundary` at
`X = "Notes"`, path `"NotesBackup/k.md"`. -/
theorem c10_marker_strip_no_boundary_witness :
    (lowerL ("Notes" : String).data).isPrefixOf (lowerL ("NotesBackup/k.md" : String).data) = true ∧
    memPathCond ("Notes" ++ "/**") "NotesBackup/k.md" = true ∧
    dbPathCond ("Notes" ++ "/**") "NotesBackup/k.md" = true :=
  ⟨by decide,
    (c10_marker_strip_no_boundary.1 "Notes" "NotesBackup/k.md" (by decide)).1,
    (c10_marker_strip_no_boundary.1 "Notes" "NotesBackup/k.md" (by decide)).2⟩

/-- Claim C7 (amended): for wildcard-free patterns (`%` and `_` are SQL
`LIKE` metacharacters that the SQLite backend interprets, unlike the
in-memory backend — see `c7_counterexample`), both backends implement the
documented path-filter semantics: a pattern ending in the `/**` marker
keeps a path exactly when the lowercase path starts with the lowercase
prefix before the marker, any other pattern exactly when the lowercase
path contains the lowercase pattern; the `Work/**` examples behave as
documented in both backends. -/
theorem c7_path_filter_semantics (p q : String) (hw : noWildcard p.data = true) :
    (memPathCond p q =
      (if strEndsWith (lowerS p) "/**" then
        ((lowerS p).data.take ((lowerS p).data.length - 3)).isPrefixOf (lowerS q).data
       else hasInfix (lowerS p).data (lowerS q).data)) ∧
    dbPathCond p q = memPathCond p q ∧
    (memPathCond "Work/**" "Work/a.md" = true ∧
     memPathCond "Work/**" "Work/sub/b.md" = true ∧
     memPathCond "Work/**" "Projects/Work-plan.md" = false ∧
     dbPathCond "Work/**" "Work/a.md" = true ∧
     dbPathCond "Work/**" "Work/sub/b.md" = true ∧
     dbPathCond "Work/**" "Projects/Work-plan.md" = false) := by
  refine ⟨?_, (pathCond_eq hw).symm, by decide, by decide, by decide, by decide, by decide,
    by decide⟩
  rw [memPathCond]
  split
  · rw [strStartsWith, mk_data]
  · rw [strIncludes]

/-- Claim C7, counterexample to the claim as stated: the pattern `a%b`
does not end in the marker, and the path `axb.md` does not contain the
substring `a%b`; yet the SQLite backend's filter keeps it, because `%`
acts as a `LIKE` wildcard in `'%' || pattern || '%'`. -/
theorem c7_counterexample :
    dbPathCond "a%b" "axb.md" = true ∧
    strIncludes (lowerS "axb.md") (lowerS "a%b") = false := by
  decide

/-- Witness instantiating `c7_path_filter_semantics` at the pattern
`Work/**` and path `Work/a.md`. -/
theorem c7_path_filter_semantics_witness :
    noWildcard ("Work/**" : String).data = true ∧
    memPathCond "Work/**" "Work/a.md" =
      (if strEndsWith (lowerS "Work/**") "/**" then
        ((lowerS "Work/**").data.take ((lowerS "Work/**").data.length - 3)).isPrefixOf
          (lowerS "Work/a.md").data
       else hasInfix (lowerS "Work/**").data (lowerS "Work/a.md").data) ∧
    dbPathCond "Work/**" "Work/a.md" = memPathCond "Work/**" "Work/a.md" :=
  ⟨by decide, (c7_path_filter_semantics "Work/**" "Work/a.md" (by decide)).1,
    (c7_path_filter_semantics "Work/**" "Work/a.md" (by decide)).2.1⟩

theorem mem_memSearchPipeline_applyFilters {candidates : List Note} {options : SearchOptions}
    {n : Note} (h : n ∈ memSearchPipeline candidates options) :
    n ∈ applyFilters candidates options := by
  rw [memSearchPipeline] at h
  exact mem_sortLe.mp (List.mem_of_mem_take h)

/-- Claim C4: with `includeArchive` false or omitted neither backend's
search returns a path that case-insensitively begins with `archive/`
(for the in-memory backend this holds for any candidate list produced by
the text stage, hence for every query); with `includeArchive = true` and
no other filters, a search whose limit covers the store returns every
stored document, archived ones included, in both backends. -/
theorem c4_archive_exclusion :
    (∀ (candidates : List Note) (options : SearchOptions),
      truthyBool options.includeArchive = false →
      ∀ n ∈ memSearchPipeline candidates options,
        strStartsWith (lowerS n.path) "archive/" = false) ∧
    (∀ (notes : List Note) (options : SearchOptions),
      truthyBool options.includeArchive = false →
      ∀ n ∈ dbSearchNotes notes options,
        strStartsWith (lowerS n.path) "archive/" = false) ∧
    (∀ (notes : List Note) (L : Nat), 0 < L → notes.length ≤ L →
      ∀ n ∈ notes, n ∈ memSearchNotes notes { includeArchive := some true, limit := some L }) ∧
    (∀ (notes : List Note) (L : Nat), 0 < L → notes.length ≤ L →
      ∀ n ∈ notes, n ∈ dbSearchNotes notes { includeArchive := some true, limit := some L }) := by
  have hL : ∀ L : Nat, 0 < L → orElseNat (some L) 20 = L := by
    intro L hpos
    rw [orElseNat]
    have : (L == 0) = false := by
      simp only [beq_eq_false_iff_ne, ne_eq]
      omega
    rw [this]
    rfl
  refine ⟨?_, ?_, ?_, ?_⟩
  · intro candidates options harch n hn
    have h1 := (mem_applyFilters.mp (mem_memSearchPipeline_applyFilters hn)).2.2.1 harch
    rw [memIsArchived] at h1
    simpa using h1
  · intro notes options harch n hn
    rw [dbSearchNotes] at hn
    have h1 := (List.mem_filter.mp (mem_sortLe.mp (List.mem_of_mem_take hn))).2
    simp only [dbWherePred, Bool.and_eq_true] at h1
    have h2 := h1.1.1.1.1.1.2
    rw [harch] at h2
    simp only [Bool.false_eq_true, if_false] at h2
    rw [← archiveCond_eq, memIsArchived] at h2
    simpa using h2
  · intro notes L hpos hlen n hn
    rw [memSearchNotes, memSearchPipeline]
    have happ : applyFilters notes { includeArchive := some true, limit := some L } = notes := rfl
    rw [happ, hL L hpos]
    have hslen : (sortByRecency notes).length ≤ L := by
      rw [sortByRecency, length_sortLe]
      exact hlen
    rw [List.take_of_length_le hslen]
    exact mem_sortLe.mpr hn
  · intro notes L hpos hlen n hn
    rw [dbSearchNotes]
    have hfilt : notes.filter
        (dbWherePred { includeArchive := some true, limit := some L }) = notes := by
      apply List.filter_eq_self.mpr
      intro a _
      rfl
    rw [hfilt, hL L hpos]
    have hslen : (sortLe (fun a b => dbModifiedGe (toRow a).modified (toRow b).modified)
        notes).length ≤ L := by
      rw [length_sortLe]
      exact hlen
    rw [List.take_of_length_le hslen]
    exact mem_sortLe.mpr hn

/-- Witness instantiating `c4_archive_exclusion`: a store with one
archived and one plain note; the default search excludes the archived
path, the `includeArchive` search returns both documents. -/
theorem c4_archive_exclusion_witness :
    (truthyBool (SearchOptions.includeArchive {}) = false ∧
      ∀ n ∈ memSearchPipeline
        [{ path := "Archive/x.md" }, { path := "a.md" }] ({} : SearchOptions),
        strStartsWith (lowerS n.path) "archive/" = false) ∧
    (∀ n ∈ dbSearchNotes [{ path := "Archive/x.md" }, { path := "a.md" }] ({} : SearchOptions),
      strStartsWith (lowerS n.path) "archive/" = false) ∧
    (0 < 5 ∧ ∀ n ∈ ([{ path := "Archive/x.md" }, { path := "a.md" }] : List Note),
      n ∈ memSearchNotes [{ path := "Archive/x.md" }, { path := "a.md" }]
        { includeArchive := some true, limit := some 5 }) ∧
    (∀ n ∈ ([{ path := "Archive/x.md" }, { path := "a.md" }] : List Note),
      n ∈ dbSearchNotes [{ path := "Archive/x.md" }, { path := "a.md" }]
        { includeArchive := some true, limit := some 5 }) :=
  ⟨⟨by decide, c4_archive_exclusion.1 _ _ (by decide)⟩,
    c4_archive_exclusion.2.1 _ _ (by decide),
    ⟨by decide, c4_archive_exclusion.2.2.1 _ 5 (by decide) (by decide)⟩,
    c4_archive_exclusion.2.2.2 _ 5 (by decide) (by decide)⟩

theorem lexLt_trans :
    ∀ {a b c : List Char}, lexLt a b = true → lexLt b c = true → lexLt a c = true := by
  intro a
  induction a with
  | nil =>
    intro b c hab hbc
    cases c with
    | nil =>
      cases b with
      | nil => exact absurd hab (by simp [lexLt])
      | cons y ys => exact absurd hbc (by simp [lexLt])
    | cons z zs => simp [lexLt]
  | cons x xs ih =>
    intro b c hab hbc
    cases b with
    | nil => exact absurd hab (by simp [lexLt])
    | cons y ys =>
      cases c with
      | nil => exact absurd hbc (by simp [lexLt])
      | cons z zs =>
        simp only [lexLt] at hab hbc ⊢
        by_cases hxy : x.toNat < y.toNat
        · by_cases hyz : y.toNat < z.toNat
          · rw [if_pos (by omega)]
          · rw [if_neg hyz] at hbc
            by_cases hzy : z.toNat < y.toNat
            · rw [if_pos hzy] at hbc
              exact absurd hbc (by simp)
            · rw [if_pos (by omega)]
        · rw [if_neg hxy] at hab
          by_cases hyx : y.toNat < x.toNat
          · rw [if_pos hyx] at hab
            exact absurd hab (by simp)
          · rw [if_neg hyx] at hab
            by_cases hyz : y.toNat < z.toNat
            · rw [if_pos (by omega)]
            · rw [if_neg hyz] at hbc
              by_cases hzy : z.toNat < y.toNat
              · rw [if_pos hzy] at hbc
                exact absurd hbc (by simp)
              · rw [if_neg hzy] at hbc
                rw [if_neg (by omega), if_neg (by omega)]
                exact ih hab hbc

theorem lexLt_connex :
    ∀ {a b : List Char}, lexLt a b = false → lexLt b a = false → a = b := by
  intro a
  induction a with
  | nil =>
    intro b hab _
    cases b with
    | nil => rfl
    | cons y ys => exact absurd hab (by simp [lexLt])
  | cons x xs ih =>
    intro b hab hba
    cases b with
    | nil => exact absurd hba (by simp [lexLt])
    | cons y ys =>
      simp only [lexLt] at hab hba
      by_cases hxy : x.toNat < y.toNat
      · rw [if_pos hxy] at hab
        exact absurd hab (by simp)
      · rw [if_neg hxy] at hab
        by_cases hyx : y.toNat < x.toNat
        · rw [if_pos hyx] at hba
          exact absurd hba (by simp)
        · rw [if_neg hyx] at hab
          rw [if_neg (by omega), if_neg (by omega)] at hba
          have hxe : x = y := char_eq_of_toNat_eq (by omega)
          rw [hxe, ih hab hba]

theorem dbModifiedGe_total (a b : Option String) :
    dbModifiedGe a b = true ∨ dbModifiedGe b a = true := by
  cases a with
  | none =>
    cases b with
    | none => left; rfl
    | some y => right; rfl
  | some x =>
    cases b with
    | none => left; rfl
    | some y =>
      simp only [dbModifiedGe, lexLe, Bool.not_eq_true']
      by_cases h : lexLt x.data y.data = true
      · right
        by_cases h2 : lexLt y.data x.data = true
        · exact absurd (lexLt_trans h h2) (by simp [lexLt_irrefl])
        · simpa using h2
      · left
        simpa using h

theorem dbModifiedGe_trans (a b c : Option String) :
    dbModifiedGe a b = true → dbModifiedGe b c = true → dbModifiedGe a c = true := by
  cases a with
  | none =>
    cases b with
    | none =>
      cases c with
      | none => intro _ _; rfl
      | some z => intro _ h; exact absurd h (by simp [dbModifiedGe])
    | some y => intro h _; exact absurd h (by simp [dbModifiedGe])
  | some x =>
    cases b with
    | none =>
      cases c with
      | none => intro _ _; rfl
      | some z => intro _ h; exact absurd h (by simp [dbModifiedGe])
    | some y =>
      cases c with
      | none => intro _ _; rfl
      | some z =>
        simp only [dbModifiedGe, lexLe, Bool.not_eq_true']
        intro h1 h2
        by_cases h3 : lexLt x.data z.data = true
        · by_cases h4 : lexLt z.data y.data = true
          · have := lexLt_trans h3 h4
            rw [this] at h1
            exact absurd h1 (by simp)
          · have hyz : y.data = z.data := lexLt_connex h2 (by simpa using h4)
            rw [← hyz] at h3
            rw [h3] at h1
            exact absurd h1 (by simp)
        · simpa using h3

/-- Claim C5 (amended): both backends return at most `n` documents from
`getRecentNotes`; the in-memory backend's list is ordered by the
modified date, falling back to the created date when `modified` is
absent (descending, by `recencyKey`); the SQLite backend's list is
ordered by the `modified` column alone, descending, with documents
lacking a `modified` value last — it does not fall back to `created`
(see `c5_counterexample`). -/
theorem c5_get_recent_ordering (notes : List Note) (n : Nat) :
    (memGetRecentNotes notes n).length ≤ n ∧
    (memGetRecentNotes notes n).Pairwise (fun a b => recencyKey b ≤ recencyKey a) ∧
    (dbGetRecentNotes notes n).length ≤ n ∧
    (dbGetRecentNotes notes n).Pairwise
      (fun a b => dbModifiedGe (toRow a).modified (toRow b).modified = true) := by
  refine ⟨?_, ?_, ?_, ?_⟩
  · rw [memGetRecentNotes]
    exact List.length_take_le _ _
  · rw [memGetRecentNotes, sortByRecency]
    refine List.Pairwise.sublist (List.take_sublist _ _) ?_
    have hp := @pairwise_sortLe Note (fun a b => decide (recencyKey b ≤ recencyKey a))
      (fun a b => by
        rcases Nat.le_total (recencyKey b) (recencyKey a) with h | h
        · left; simpa using h
        · right; simpa using h)
      (fun a b c hab hbc => by
        simp only [decide_eq_true_eq] at *
        omega) notes
    refine hp.imp ?_
    intro a b h
    simpa using h
  · rw [dbGetRecentNotes]
    exact List.length_take_le _ _
  · rw [dbGetRecentNotes]
    refine List.Pairwise.sublist (List.take_sublist _ _) ?_
    exact pairwise_sortLe
      (fun a b => dbModifiedGe_total (toRow a).modified (toRow b).modified)
      (fun a b c => dbModifiedGe_trans (toRow a).modified (toRow b).modified (toRow c).modified)
      notes

/-- Claim C5, counterexample to the claim as stated: document `a.md` has
`modified = 2025-01-01`; document `b.md` has no `modified` but
`created = 2025-06-01`.  Under the claimed modified-falling-back-to-
created descending order `b.md` must come first (its key is larger), and
the in-memory backend indeed returns `[b.md, a.md]`; but the SQLite
backend orders by the `modified` column alone (`NULL` last) and returns
`[a.md, b.md]`. -/
theorem c5_counterexample :
    (memGetRecentNotes
      [{ path := "a.md", frontmatter := { modified := some "2025-01-01" } },
       { path := "b.md", frontmatter := { created := some "2025-06-01" } }] 2).map Note.path
      = ["b.md", "a.md"] ∧
    (dbGetRecentNotes
      [{ path := "a.md", frontmatter := { modified := some "2025-01-01" } },
       { path := "b.md", frontmatter := { created := some "2025-06-01" } }] 2).map Note.path
      = ["a.md", "b.md"] ∧
    ¬ ((dbGetRecentNotes
      [{ path := "a.md", frontmatter := { modified := some "2025-01-01" } },
       { path := "b.md", frontmatter := { created := some "2025-06-01" } }] 2).Pairwise
        (fun a b => recencyKey b ≤ recencyKey a)) := by
  refine ⟨by decide, by decide, ?_⟩
  decide

/-- Claim C6: indexing never rejects a file over its metadata — a
candidate whose size is within the limit and whose content parses yields
a note (no error), and the built frontmatter replaces a missing or
invalid `type`/`status`/`category` with the fixed defaults `note`,
`active`, `personal`, and missing `tags` with `[]`. -/
theorem c6_metadata_defaults :
    (∀ data : RawData, isValidTypeRaw data.type = false →
      (buildFrontmatter data).type = some "note") ∧
    (∀ data : RawData, isValidStatusRaw data.status = false →
      (buildFrontmatter data).status = some "active") ∧
    (∀ data : RawData, isValidCategoryRaw data.category = false →
      (buildFrontmatter data).category = some "personal") ∧
    (∀ data : RawData, data.tags = none → (buildFrontmatter data).tags = some []) ∧
    (∀ (excerptFn : String → String) (maxFileSize : Nat) (f : VaultFile)
        (data : RawData) (body : String),
      f.size ≤ maxFileSize → f.parsed = Except.ok (data, body) →
      indexFile excerptFn maxFileSize f = Except.ok
        { path := f.path, title := basenameMd f.path, content := body,
          frontmatter := buildFrontmatter data, excerpt := some (excerptFn body) }) := by
  refine ⟨?_, ?_, ?_, ?_, ?_⟩
  · intro data h
    simp [buildFrontmatter, validOrDefault, h]
  · intro data h
    simp [buildFrontmatter, validOrDefault, h]
  · intro data h
    simp [buildFrontmatter, validOrDefault, h]
  · intro data h
    simp [buildFrontmatter, listOrEmpty, h]
  · intro excerptFn maxFileSize f data body hsize hparsed
    rw [indexFile, if_neg (by omega), hparsed]

/-- Witness instantiating `c6_metadata_defaults` on a file whose
frontmatter carries `type: bogus` and no `tags` key: it is indexed
without error and receives the defaults. -/
theorem c6_metadata_defaults_witness :
    isValidTypeRaw (RawData.type { type := some (RawVal.str "bogus") }) = false ∧
    (buildFrontmatter { type := some (RawVal.str "bogus") }).type = some "note" ∧
    (buildFrontmatter { type := some (RawVal.str "bogus") }).tags = some [] ∧
    indexFile id 100 { path := "b.md", size := 3, parsed := Except.ok ({ type := some (RawVal.str "bogus") }, "hi") } = Except.ok { path := "b.md", title := basenameMd "b.md", content := "hi", frontmatter := buildFrontmatter { type := some (RawVal.str "bogus") }, excerpt := some (id "hi") } :=
  ⟨by decide, c6_metadata_defaults.1 _ (by decide),
    c6_metadata_defaults.2.2.2.1 _ rfl,
    c6_metadata_defaults.2.2.2.2 id 100 _ _ _ (by decide) rfl⟩

theorem indexFile_error_path {excerptFn : String → String} {maxFileSize : Nat}
    {f : VaultFile} {e : IndexError}
    (h : indexFile excerptFn maxFileSize f = Except.error e) : e.path = f.path := by
  rw [indexFile] at h
  split at h
  · injection h with h'
    rw [← h']
  · split at h
    · injection h with h'
      rw [← h']
    · injection h

theorem indexFile_ok_path {excerptFn : String → String} {maxFileSize : Nat}
    {f : VaultFile} {nt : Note}
    (h : indexFile excerptFn maxFileSize f = Except.ok nt) : nt.path = f.path := by
  rw [indexFile] at h
  split at h
  · injection h
  · split at h
    · injection h
    · injection h with h'
      rw [← h']

theorem indexFile_oversize {excerptFn : String → String} {maxFileSize : Nat}
    {f : VaultFile} (hsize : maxFileSize < f.size) :
    indexFile excerptFn maxFileSize f =
      Except.error ⟨f.path, fileTooLargeMsg f.size maxFileSize⟩ := by
  rw [indexFile, if_pos (by omega)]

theorem indexErrors_path_mem {excerptFn : String → String} {maxFileSize : Nat}
    {files : List VaultFile} {e : IndexError}
    (h : e ∈ (indexNotes excerptFn maxFileSize files).2) :
    e.path ∈ files.map VaultFile.path := by
  rw [indexNotes] at h
  simp only [List.mem_filterMap] at h
  obtain ⟨g, hg, hmatch⟩ := h
  rcases hres : indexFile excerptFn maxFileSize g with e' | nt
  · rw [hres] at hmatch
    have he : e' = e := by
      injection hmatch
    rw [List.mem_map]
    refine ⟨g, hg, ?_⟩
    rw [← he]
    exact (indexFile_error_path hres).symm
  · rw [hres] at hmatch
    injection hmatch

theorem indexedNotes_path_mem {excerptFn : String → String} {maxFileSize : Nat}
    {files : List VaultFile} {nt : Note}
    (h : nt ∈ (indexNotes excerptFn maxFileSize files).1) :
    nt.path ∈ files.map VaultFile.path := by
  rw [indexNotes] at h
  simp only [List.mem_filterMap] at h
  obtain ⟨g, hg, hmatch⟩ := h
  rcases hres : indexFile excerptFn maxFileSize g with e' | nt'
  · rw [hres] at hmatch
    simp [Except.toOption] at hmatch
  · rw [hres] at hmatch
    simp only [Except.toOption, Option.some_inj] at hmatch
    rw [List.mem_map]
    refine ⟨g, hg, ?_⟩
    rw [← hmatch]
    exact (indexFile_ok_path hres).symm

theorem indexNotes_snd (excerptFn : String → String) (maxFileSize : Nat)
    (files : List VaultFile) :
    (indexNotes excerptFn maxFileSize files).2 =
      files.filterMap (fun f =>
        match indexFile excerptFn maxFileSize f with
        | Except.error e => some e
        | Except.ok _ => none) := rfl

theorem indexNotes_fst (excerptFn : String → String) (maxFileSize : Nat)
    (files : List VaultFile) :
    (indexNotes excerptFn maxFileSize files).1 =
      files.filterMap (fun f => (indexFile excerptFn maxFileSize f).toOption) := rfl

theorem oversize_errors_filter {excerptFn : String → String} {maxFileSize : Nat} :
    ∀ {files : List VaultFile} {f : VaultFile}, f ∈ files → maxFileSize < f.size →
      (files.map VaultFile.path).Nodup →
      (indexNotes excerptFn maxFileSize files).2.filter (fun e => e.path == f.path) =
        [⟨f.path, fileTooLargeMsg f.size maxFileSize⟩] := by
  intro files
  induction files with
  | nil => intro f hf _ _; simp at hf
  | cons g gs ih =>
    intro f hf hsize hnd
    simp only [List.map_cons, List.nodup_cons] at hnd
    obtain ⟨hgnotin, hndgs⟩ := hnd
    rw [indexNotes_snd]
    rcases List.mem_cons.mp hf with rfl | hfgs
    · have hres := @indexFile_oversize excerptFn maxFileSize f hsize
      rw [List.filterMap_cons_some (by simp only [hres]; rfl)]
      rw [List.filter_cons, if_pos (by simp)]
      have htail : ((indexNotes excerptFn maxFileSize gs).2.filter
          (fun e => e.path == f.path)) = [] := by
        rw [List.filter_eq_nil_iff]
        intro e he
        have hmem := indexErrors_path_mem he
        simp only [beq_iff_eq]
        intro hep
        rw [hep] at hmem
        exact hgnotin hmem
      rw [indexNotes_snd] at htail
      rw [htail]
    · have hgf : g.path ≠ f.path := by
        intro he
        apply hgnotin
        rw [he]
        exact List.mem_map.mpr ⟨f, hfgs, rfl⟩
      have hih := ih hfgs hsize hndgs
      rw [indexNotes_snd] at hih
      rcases hres : indexFile excerptFn maxFileSize g with e' | nt'
      · rw [List.filterMap_cons_some (by simp only [hres]; rfl)]
        rw [List.filter_cons, if_neg (by
          simp only [beq_iff_eq]
          rw [indexFile_error_path hres]
          simpa using hgf)]
        exact hih
      · rw [List.filterMap_cons_none (by simp only [hres])]
        exact hih

theorem oversize_notes_filter {excerptFn : String → String} {maxFileSize : Nat}
    {files : List VaultFile} {f : VaultFile} (hf : f ∈ files) (hsize : maxFileSize < f.size)
    (hnd : (files.map VaultFile.path).Nodup) :
    (indexNotes excerptFn maxFileSize files).1.filter (fun nt => nt.path == f.path) = [] := by
  rw [List.filter_eq_nil_iff]
  intro nt hnt
  simp only [beq_iff_eq]
  intro hep
  rw [indexNotes] at hnt
  simp only [List.mem_filterMap] at hnt
  obtain ⟨g, hg, hmatch⟩ := hnt
  rcases hres : indexFile excerptFn maxFileSize g with e' | nt'
  · rw [hres] at hmatch
    simp [Except.toOption] at hmatch
  · rw [hres] at hmatch
    simp only [Except.toOption, Option.some_inj] at hmatch
    have hgpath : nt.path = g.path := by
      rw [← hmatch]
      exact indexFile_ok_path hres
    have hgsize : ¬ (g.size > maxFileSize) := by
      intro hbig
      rw [indexFile_oversize hbig] at hres
      injection hres
    have : g ≠ f := by
      intro he
      rw [he] at hgsize
      omega
    have hdup : ¬ (files.map VaultFile.path).Nodup → False := fun h => h hnd
    have hfp : f.path ∈ files.map VaultFile.path := List.mem_map.mpr ⟨f, hf, rfl⟩
    have hgp : g.path ∈ files.map VaultFile.path := List.mem_map.mpr ⟨g, hg, rfl⟩
    rw [hep] at hgpath
    exact this (by
      have := List.inj_on_of_nodup_map hnd hg hf hgpath.symm
      exact this)

/-- Claim C8: a candidate file whose size exceeds the limit yields
exactly one `(path, reason)` entry in the error list (with the "File too
large" reason), yields no document (its path is absent from the returned
notes), and every other candidate within the size limit whose content
parses is still indexed; the pass itself is a total function — no
exception propagates. -/
theorem c8_oversize_file_isolated (excerptFn : String → String) (maxFileSize : Nat)
    (files : List VaultFile) (f : VaultFile)
    (hf : f ∈ files) (hsize : maxFileSize < f.size)
    (hnd : (files.map VaultFile.path).Nodup) :
    (indexNotes excerptFn maxFileSize files).2.filter (fun e => e.path == f.path) =
      [⟨f.path, fileTooLargeMsg f.size maxFileSize⟩] ∧
    f.path ∉ (indexNotes excerptFn maxFileSize files).1.map Note.path ∧
    (∀ g ∈ files, ∀ data body, g.size ≤ maxFileSize → g.parsed = Except.ok (data, body) →
      ∃ nt ∈ (indexNotes excerptFn maxFileSize files).1, nt.path = g.path) := by
  refine ⟨oversize_errors_filter hf hsize hnd, ?_, ?_⟩
  · intro hmem
    rw [List.mem_map] at hmem
    obtain ⟨nt, hnt, hpath⟩ := hmem
    have hfilt := @oversize_notes_filter excerptFn maxFileSize files f hf hsize hnd
    rw [List.filter_eq_nil_iff] at hfilt
    exact hfilt nt hnt (by simp [hpath])
  · intro g hg data body hgsize hgparsed
    have hok : indexFile excerptFn maxFileSize g = Except.ok
        { path := g.path, title := basenameMd g.path, content := body,
          frontmatter := buildFrontmatter data, excerpt := some (excerptFn body) } := by
      rw [indexFile, if_neg (by omega), hgparsed]
    refine ⟨{ path := g.path, title := basenameMd g.path, content := body, frontmatter := buildFrontmatter data, excerpt := some (excerptFn body) }, ?_, rfl⟩
    rw [indexNotes_fst]
    rw [List.mem_filterMap]
    exact ⟨g, hg, by rw [hok]; rfl⟩

/-- Witness instantiating `c8_oversize_file_isolated`: two candidate
files, one oversized, one ordinary. -/
theorem c8_oversize_file_isolated_witness :
    (indexNotes id 10 [{ path := "big.md", size := 50, parsed := Except.ok ({}, "x") }, { path := "ok.md", size := 5, parsed := Except.ok ({}, "y") }]).2.filter (fun e => e.path == "big.md") = [⟨"big.md", fileTooLargeMsg 50 10⟩] ∧
    "big.md" ∉ (indexNotes id 10 [{ path := "big.md", size := 50, parsed := Except.ok ({}, "x") }, { path := "ok.md", size := 5, parsed := Except.ok ({}, "y") }]).1.map Note.path ∧
    (∀ g ∈ ([{ path := "big.md", size := 50, parsed := Except.ok ({}, "x") }, { path := "ok.md", size := 5, parsed := Except.ok ({}, "y") }] : List VaultFile), ∀ data body, g.size ≤ 10 → g.parsed = Except.ok (data, body) →
      ∃ nt ∈ (indexNotes id 10 [{ path := "big.md", size := 50, parsed := Except.ok ({}, "x") }, { path := "ok.md", size := 5, parsed := Except.ok ({}, "y") }]).1, nt.path = g.path) := by
  have h := c8_oversize_file_isolated id 10
    [{ path := "big.md", size := 50, parsed := Except.ok ({}, "x") },
     { path := "ok.md", size := 5, parsed := Except.ok ({}, "y") }]
    { path := "big.md", size := 50, parsed := Except.ok ({}, "x") }
    (by simp) (by decide) (by decide)
  exact ⟨h.1, h.2.1, h.2.2⟩

theorem hasDup_eq_false_of_nodup : ∀ {l : List String}, l.Nodup → hasDup l = false := by
  intro l
  induction l with
  | nil => intro _; rfl
  | cons x xs ih =>
    intro hnd
    rw [List.nodup_cons] at hnd
    rw [hasDup, ih hnd.2, Bool.or_false]
    simpa using hnd.1

theorem filter_deleted_then_insert {α} (p : α → Bool) (l new : List α)
    (hnew : ∀ x ∈ new, p x = true) :
    (l.filter (fun r => !(p r)) ++ new).filter p = new := by
  rw [List.filter_append]
  have h1 : (l.filter (fun r => !(p r))).filter p = [] := by
    rw [List.filter_filter]
    rw [List.filter_eq_nil_iff]
    intro a _
    cases hp : p a <;> simp [hp]
  rw [h1, List.filter_eq_self.mpr hnew, List.nil_append]

theorem dbUpsert_ok {note : Note} (htags : (dbTagsOf note).Nodup)
    (hkeys : (note.frontmatter.extra.map Prod.fst).Nodup) (db : DbState) :
    dbUpsertNote note db = Except.ok
      { notesTbl := db.notesTbl.filter (fun r => !(r.path == note.path)) ++ [toRow note],
        noteTags := db.noteTags.filter (fun r => !(r.1 == note.path))
          ++ (dbTagsOf note).map (fun t => (note.path, t)),
        noteFm := db.noteFm.filter (fun r => !(r.1 == note.path))
          ++ note.frontmatter.extra.map (fun kv => (note.path, kv.1, kv.2)),
        notesFts := db.notesFts ++ [(note.path, note.title, note.content)] } := by
  rw [dbUpsertNote]
  rw [if_neg (by rw [hasDup_eq_false_of_nodup htags]; simp)]
  rw [if_neg (by rw [hasDup_eq_false_of_nodup hkeys]; simp)]

theorem memReplace_filter (note : Note) :
    ∀ {store : List Note}, (store.map Note.path).Nodup →
    ((store.map (fun n => if n.path == note.path then note else n)).filter
      (fun n => n.path == note.path)) =
    (if store.any (fun n => n.path == note.path) then [note] else []) := by
  intro store
  induction store with
  | nil => intro _; rfl
  | cons a as ih =>
    intro hnd
    simp only [List.map_cons, List.nodup_cons] at hnd
    obtain ⟨hanotin, hndas⟩ := hnd
    by_cases ha : (a.path == note.path) = true
    · rw [List.map_cons, if_pos ha, List.filter_cons, if_pos (by simp)]
      have hrest : ((as.map (fun n => if n.path == note.path then note else n)).filter
          (fun n => n.path == note.path)) = [] := by
        have hnone : ∀ n ∈ as, (n.path == note.path) = false := by
          intro n hn
          simp only [beq_eq_false_iff_ne, ne_eq]
          intro he
          apply hanotin
          rw [beq_iff_eq.mp ha, ← he]
          exact List.mem_map.mpr ⟨n, hn, rfl⟩
        rw [List.filter_eq_nil_iff]
        intro n hn
        rw [List.mem_map] at hn
        obtain ⟨m, hm, hrepl⟩ := hn
        rw [if_neg (by rw [hnone m hm]; simp)] at hrepl
        rw [← hrepl]
        simp only [Bool.not_eq_true]
        exact hnone m hm
      rw [hrest, List.any_cons, ha]
      rfl
    · rw [List.map_cons, if_neg ha, List.filter_cons,
        if_neg (by simpa using ha), ih hndas, List.any_cons]
      have ha' : (a.path == note.path) = false := by simpa using ha
      rw [ha', Bool.false_or]

theorem memUpsert_filter (note : Note) {store : List Note}
    (hnd : (store.map Note.path).Nodup) :
    (memUpsertNote note store).filter (fun n => n.path == note.path) = [note] := by
  rw [memUpsertNote]
  by_cases h : store.any (fun n => n.path == note.path) = true
  · rw [if_pos h, memReplace_filter note hnd, if_pos h]
  · rw [if_neg h, List.filter_append]
    have h1 : store.filter (fun n => n.path == note.path) = [] := by
      rw [List.filter_eq_nil_iff]
      intro n hn
      rw [List.any_eq_true] at h
      simp only [Bool.not_eq_true]
      by_cases hb : (n.path == note.path) = true
      · exact absurd ⟨n, hn, hb⟩ h
      · simpa using hb
    rw [h1, List.nil_append, List.filter_cons, if_pos (by simp)]
    rfl

theorem memUpsert_nodup (note : Note) {store : List Note}
    (hnd : (store.map Note.path).Nodup) :
    ((memUpsertNote note store).map Note.path).Nodup := by
  rw [memUpsertNote]
  by_cases h : store.any (fun n => n.path == note.path) = true
  · rw [if_pos h]
    have hmap : (store.map (fun n => if n.path == note.path then note else n)).map Note.path =
        store.map Note.path := by
      rw [List.map_map]
      apply List.map_congr_left
      intro a _
      by_cases ha : (a.path == note.path) = true
      · simp only [Function.comp_apply, if_pos ha]
        exact (beq_iff_eq.mp ha).symm
      · simp only [Function.comp_apply, if_neg ha]
    rw [hmap]
    exact hnd
  · rw [if_neg h, List.map_append, List.nodup_append]
    refine ⟨hnd, by simp, ?_⟩
    intro x hx
    simp only [List.map_cons, List.map_nil, List.mem_cons, List.not_mem_nil, or_false]
    intro he
    rw [List.any_eq_true] at h
    rw [List.mem_map] at hx
    obtain ⟨n, hn, hnp⟩ := hx
    exact h ⟨n, hn, by rw [hnp, he]; simp⟩

/-- Claim C3 (amended): for every storage state and every document whose
tag list and custom-field keys are duplicate-free (a duplicate tag
violates the `(note_path, tag)` primary key and aborts the transaction —
see `c3_counterexample`), upserting the document twice leaves, in the
SQLite backend, exactly one `notes` row for the path (the new row, all
scalar columns replaced), exactly the document's tag associations and
custom-field associations (no duplicates, no partial merge), while the
fts5 shadow table receives one appended row per upsert (prior full-text
rows for the path are not removed); and, in the in-memory backend,
exactly one stored record for the path, equal to the new document. -/
theorem c3_upsert_replaces (db : DbState) (store : List Note) (note : Note)
    (htags : (note.frontmatter.tags.getD []).Nodup)
    (hkeys : (note.frontmatter.extra.map Prod.fst).Nodup)
    (hstore : (store.map Note.path).Nodup) :
    ∃ db1 db2 : DbState,
      dbUpsertNote note db = Except.ok db1 ∧
      dbUpsertNote note db1 = Except.ok db2 ∧
      db2.notesTbl.filter (fun r => r.path == note.path) = [toRow note] ∧
      (db2.noteTags.filter (fun r => r.1 == note.path)).map Prod.snd =
        note.frontmatter.tags.getD [] ∧
      db2.noteFm.filter (fun r => r.1 == note.path) =
        note.frontmatter.extra.map (fun kv => (note.path, kv.1, kv.2)) ∧
      db2.notesFts = db.notesFts ++
        [(note.path, note.title, note.content), (note.path, note.title, note.content)] ∧
      (memUpsertNote note (memUpsertNote note store)).filter
        (fun n => n.path == note.path) = [note] := by
  have htags' : (dbTagsOf note).Nodup := htags
  have h1 := dbUpsert_ok htags' hkeys db
  refine ⟨_, _, h1, dbUpsert_ok htags' hkeys _, ?_, ?_, ?_, ?_, ?_⟩
  · exact filter_deleted_then_insert _ _ _ (by
      intro x hx
      simp only [List.mem_singleton] at hx
      rw [hx]
      simp [toRow])
  · rw [filter_deleted_then_insert _ _ _ (by
      intro x hx
      rw [List.mem_map] at hx
      obtain ⟨t, _, ht⟩ := hx
      rw [← ht]
      simp)]
    rw [List.map_map]
    simp [dbTagsOf]
  · exact filter_deleted_then_insert _ _ _ (by
      intro x hx
      rw [List.mem_map] at hx
      obtain ⟨kv, _, hkv⟩ := hx
      rw [← hkv]
      simp)
  · rw [List.append_assoc]
    rfl
  · exact memUpsert_filter note (memUpsert_nodup note hstore)

/-- Claim C3, counterexample to the claim as stated: upserting a
document with the duplicate tag list `["a", "a"]` over an existing
record at the same path violates the `note_tags` primary key — the
transaction aborts and no new record replaces the old one; and upserting
even a well-formed document twice leaves two rows for its path in the
fts5 shadow table, so the full-text row is not replaced. -/
theorem c3_counterexample :
    ((dbUpsertNote { path := "p.md", frontmatter := { tags := some ["x"] } }
      {}).toOption).isSome = true ∧
    (Except.bind (dbUpsertNote { path := "p.md", frontmatter := { tags := some ["x"] } } {})
      (dbUpsertNote { path := "p.md", frontmatter := { tags := some ["a", "a"] } })).toOption
      = none ∧
    ((Except.bind (dbUpsertNote { path := "q.md" } {}) (dbUpsertNote { path := "q.md" })).toOption.map
      (fun db => db.notesFts.length)) = some 2 := by
  decide

/-- Witness instantiating `c3_upsert_replaces` on the empty state and a
document with two tags and one custom field. -/
theorem c3_upsert_replaces_witness :
    ((NoteFrontmatter.tags { tags := some ["a", "b"], extra := [("k", "v")] }).getD []).Nodup ∧
    ∃ db1 db2 : DbState,
      dbUpsertNote { path := "w.md", frontmatter := { tags := some ["a", "b"], extra := [("k", "v")] } } {} = Except.ok db1 ∧
      dbUpsertNote { path := "w.md", frontmatter := { tags := some ["a", "b"], extra := [("k", "v")] } } db1 = Except.ok db2 ∧
      db2.notesTbl.filter (fun r => r.path == "w.md") = [toRow { path := "w.md", frontmatter := { tags := some ["a", "b"], extra := [("k", "v")] } }] ∧
      (db2.noteTags.filter (fun r => r.1 == "w.md")).map Prod.snd = ["a", "b"] ∧
      db2.noteFm.filter (fun r => r.1 == "w.md") = [("w.md", "k", "v")] ∧
      db2.notesFts = [("w.md", "", ""), ("w.md", "", "")] ∧
      (memUpsertNote { path := "w.md", frontmatter := { tags := some ["a", "b"], extra := [("k", "v")] } } (memUpsertNote { path := "w.md", frontmatter := { tags := some ["a", "b"], extra := [("k", "v")] } } [])).filter (fun n => n.path == "w.md") = [{ path := "w.md", frontmatter := { tags := some ["a", "b"], extra := [("k", "v")] } }] := by
  refine ⟨by decide, ?_⟩
  have h := c3_upsert_replaces {} []
    { path := "w.md", frontmatter := { tags := some ["a", "b"], extra := [("k", "v")] } }
    (by decide) (by decide) (by decide)
  obtain ⟨db1, db2, ha, hb, hc, hd, he, hf, hg⟩ := h
  exact ⟨db1, db2, ha, hb, hc, hd, he, hf, hg⟩

/-- Claim C9 (amended): the `summarize_notes` handler computes `total`
and the `byType`/`byStatus`/`byCategory` counts over the list returned
by the empty-text search, which is truncated to the effective limit (the
handler passes none, so 20); when at most 20 documents match the
filters — the hypothesis below — the counts cover every matching
document, and `recentlyModified` is the first five entries of a
recency-sorted permutation of the matching documents.  (With more than
20 matching documents the counts cover only the 20 most recent — see
`c9_counterexample`.) -/
theorem c9_summarize_counts (store : List Note) (options : SearchOptions)
    (hlim : (applyFilters store options).length ≤ orElseNat options.limit 20) :
    (summarizeNotes store options).total = (applyFilters store options).length ∧
    (∀ k, (summarizeNotes store options).byType k =
      (applyFilters store options).countP
        (fun n => truthyStr n.frontmatter.type && n.frontmatter.type.getD "" == k)) ∧
    (∀ k, (summarizeNotes store options).byStatus k =
      (applyFilters store options).countP
        (fun n => truthyStr n.frontmatter.status && n.frontmatter.status.getD "" == k)) ∧
    (∀ k, (summarizeNotes store options).byCategory k =
      (applyFilters store options).countP
        (fun n => truthyStr n.frontmatter.category && n.frontmatter.category.getD "" == k)) ∧
    ∃ l : List Note, l.Perm (applyFilters store options) ∧
      l.Pairwise (fun a b => recencyKey b ≤ recencyKey a) ∧
      (summarizeNotes store options).recentlyModified =
        (l.take 5).map (fun n => (n.title, n.path, n.frontmatter.modified)) := by
  have hsearch : memSearchNotes store options = sortByRecency (applyFilters store options) := by
    rw [memSearchNotes, memSearchPipeline]
    apply List.take_of_length_le
    rw [sortByRecency, length_sortLe]
    exact hlim
  have hperm : (sortByRecency (applyFilters store options)).Perm (applyFilters store options) := by
    rw [sortByRecency]
    exact sortLe_perm _ _
  refine ⟨?_, ?_, ?_, ?_, ?_⟩
  · rw [summarizeNotes]
    simp only [hsearch]
    exact hperm.length_eq
  · intro k
    rw [summarizeNotes]
    simp only [hsearch]
    exact hperm.countP_eq _
  · intro k
    rw [summarizeNotes]
    simp only [hsearch]
    exact hperm.countP_eq _
  · intro k
    rw [summarizeNotes]
    simp only [hsearch]
    exact hperm.countP_eq _
  · refine ⟨sortByRecency (applyFilters store options), hperm, ?_, ?_⟩
    · rw [sortByRecency]
      have hp := @pairwise_sortLe Note (fun a b => decide (recencyKey b ≤ recencyKey a))
        (fun a b => by
          rcases Nat.le_total (recencyKey b) (recencyKey a) with h | h
          · left; simpa using h
          · right; simpa using h)
        (fun a b c hab hbc => by
          simp only [decide_eq_true_eq] at *
          omega) (applyFilters store options)
      refine hp.imp ?_
      intro a b h
      simpa using h
    · rw [summarizeNotes]
      simp only [hsearch]

/-- Claim C9, counterexample to the claim as stated: 21 documents all
match the empty filter set, but `summarize_notes` counts only over the
list returned by `searchNotes('', …)`, which defaults to `limit = 20`;
the reported total and `byType` count are 20, not 21. -/
theorem c9_counterexample :
    (summarizeNotes ((List.range 21).map (fun i =>
      { path := toString i ++ ".md", frontmatter := { type := some "note" } })) {}).total = 20 ∧
    (applyFilters ((List.range 21).map (fun i =>
      { path := toString i ++ ".md", frontmatter := { type := some "note" } })) {}).length = 21 ∧
    (summarizeNotes ((List.range 21).map (fun i =>
      { path := toString i ++ ".md", frontmatter := { type := some "note" } })) {}).byType "note"
      = 20 := by
  refine ⟨by decide, by decide, by decide⟩

/-- Witness instantiating `c9_summarize_counts` on a three-document
store with a status filter. -/
theorem c9_summarize_counts_witness :
    (applyFilters [{ path := "a.md", frontmatter := { status := some "active" } }, { path := "b.md", frontmatter := { status := some "idea" } }, { path := "c.md", frontmatter := { status := some "active", modified := some "2025-02-03" } }] { status := some "active" }).length ≤ orElseNat (SearchOptions.limit { status := some "active" }) 20 ∧
    (summarizeNotes [{ path := "a.md", frontmatter := { status := some "active" } }, { path := "b.md", frontmatter := { status := some "idea" } }, { path := "c.md", frontmatter := { status := some "active", modified := some "2025-02-03" } }] { status := some "active" }).total =
      (applyFilters [{ path := "a.md", frontmatter := { status := some "active" } }, { path := "b.md", frontmatter := { status := some "idea" } }, { path := "c.md", frontmatter := { status := some "active", modified := some "2025-02-03" } }] { status := some "active" }).length ∧
    (summarizeNotes [{ path := "a.md", frontmatter := { status := some "active" } }, { path := "b.md", frontmatter := { status := some "idea" } }, { path := "c.md", frontmatter := { status := some "active", modified := some "2025-02-03" } }] { status := some "active" }).byStatus "active" =
      (applyFilters [{ path := "a.md", frontmatter := { status := some "active" } }, { path := "b.md", frontmatter := { status := some "idea" } }, { path := "c.md", frontmatter := { status := some "active", modified := some "2025-02-03" } }] { status := some "active" }).countP
        (fun n => truthyStr n.frontmatter.status && n.frontmatter.status.getD "" == "active") := by
  refine ⟨by decide, ?_, ?_⟩
  · exact (c9_summarize_counts _ _ (by decide)).1
  · exact (c9_summarize_counts _ _ (by decide)).2.2.1 "active"
